import Mathlib

/-!
Verification of the probabilistic-filter library (counting bloom filter and
cuckoo filter) against its natural-language specification.  The Rust source
is shallowly embedded: machine words (usize/u64) become Nat values below
2^64, byte strings become lists of Nat, the pluggable seeded hash capability
becomes an explicit function argument, and operations that can panic in Rust
return Option (none marks the panic).
-/

set_option maxHeartbeats 1000000

/-- Seeded hash capability used by the counting bloom filter: a function
from a seed and a byte string to a 64-bit digest (src uses fasthash
FastHasher with Seed = u32). -/
def HashFn : Type := Nat → List Nat → Nat

/-- Bitwise complement of a value within one 64-bit machine word
(Rust `!x` on usize). -/
def cmpl64 (x : Nat) : Nat := (2 ^ 64 - 1) ^^^ x

/-- Construction-time validation errors of the counting bloom filter
(enum Error in src/bloom/mod.rs). -/
inductive BloomError
  | InvalidHashCount (got : Nat)
  | InvalidBinCount (got : Nat)
  | BitsPerCounterTooLarge (got bits : Nat)
  | BitsPerCounterUnaligned (got bits : Nat)
deriving DecidableEq

/-- State of a CountingBloomFilter (src/bloom/mod.rs): a vector of machine
words each packing counters_per_bin counters of bits_per_counter bits. -/
structure CountingBloomFilter where
  counter_bins : List Nat
  counter_max : Nat
  counters_per_bin : Nat
  bits_per_counter : Nat
  n_hashes : Nat
deriving DecidableEq

/-- calc_max_counter from src/bloom/mod.rs: all-ones word when n_bits is the
word width, otherwise 2^n_bits - 1. -/
def calc_max_counter (n_bits : Nat) : Nat :=
  if n_bits = 64 then 2 ^ 64 - 1 else 2 ^ n_bits - 1

/-- CountingBloomFilter::with_bits_per_counter.  The outer Option models
panics: Rust evaluates `usize::BITS % bits_per_counter` which panics when
bits_per_counter = 0 (division by zero); every other input returns a
Result, modelled by Except. -/
def with_bits_per_counter (num_counters n_hashes bits_per_counter : Nat) :
    Option (Except BloomError CountingBloomFilter) :=
  if bits_per_counter > 64 then
    some (Except.error (BloomError.BitsPerCounterTooLarge bits_per_counter 64))
  else if bits_per_counter = 0 then
    none
  else if 64 % bits_per_counter ≠ 0 then
    some (Except.error (BloomError.BitsPerCounterUnaligned bits_per_counter 64))
  else if num_counters = 0 then
    some (Except.error (BloomError.InvalidBinCount num_counters))
  else if n_hashes = 0 ∨ n_hashes > num_counters then
    some (Except.error (BloomError.InvalidHashCount n_hashes))
  else
    let counters_per_bin := 64 / bits_per_counter
    let num_bins := (num_counters + (counters_per_bin - 1)) / counters_per_bin
    some (Except.ok
      { counter_bins := List.replicate num_bins 0
        counter_max := calc_max_counter bits_per_counter
        counters_per_bin := counters_per_bin
        bits_per_counter := bits_per_counter
        n_hashes := n_hashes })

/-- CountingBloomFilter::new: 4 bits per counter. -/
def CountingBloomFilter.new (num_counters n_hashes : Nat) :
    Option (Except BloomError CountingBloomFilter) :=
  with_bits_per_counter num_counters n_hashes 4

/-- offsets from src/bloom/mod.rs: bin index, bit shift inside the word and
counter mask for a raw hash value. -/
def CountingBloomFilter.offsets (f : CountingBloomFilter) (hash : Nat) :
    Nat × Nat × Nat :=
  let bin := hash % f.counter_bins.length
  let bitshift := (hash % f.counters_per_bin) * f.bits_per_counter
  let counter_mask := f.counter_max <<< bitshift
  (bin, bitshift, counter_mask)

/-- Lookup in the staged-update map (std HashMap<usize, usize> in the
source, keyed by bin index). -/
def updLookup : List (Nat × Nat) → Nat → Option Nat
  | [], _ => none
  | (k, v) :: t, k0 => if k = k0 then some v else updLookup t k0

/-- Store a value in the staged-update map, replacing any previous entry
for the key (HashMap entry().and_modify().or_insert()). -/
def updStore : List (Nat × Nat) → Nat → Nat → List (Nat × Nat)
  | [], k0, v0 => [(k0, v0)]
  | (k, v) :: t, k0, v0 =>
    if k = k0 then (k, v0) :: t else (k, v) :: updStore t k0 v0

/-- Digest loop of CountingBloomFilter::add: one iteration per seed, each
reading the pending word for the bin if staged (else the backing word),
aborting with none as soon as a counter is saturated, else staging the
incremented counter. -/
def CountingBloomFilter.addLoop (f : CountingBloomFilter) (bytes : List Nat)
    (hashFn : HashFn) : List Nat → List (Nat × Nat) → Option (List (Nat × Nat))
  | [], updates => some updates
  | seed :: seeds, updates =>
    let off := f.offsets (hashFn seed bytes)
    let bin := off.1
    let bitshift := off.2.1
    let counter_mask := off.2.2
    let counter :=
      match updLookup updates bin with
      | none => (counter_mask &&& f.counter_bins.getD bin 0) >>> bitshift
      | some v => (counter_mask &&& v) >>> bitshift
    if counter = f.counter_max then none
    else
      let newWord :=
        match updLookup updates bin with
        | some v => (v &&& cmpl64 counter_mask) ||| ((counter + 1) <<< bitshift)
        | none => (f.counter_bins.getD bin 0 &&& cmpl64 counter_mask) |||
            ((counter + 1) <<< bitshift)
      f.addLoop bytes hashFn seeds (updStore updates bin newWord)

/-- Digest loop of CountingBloomFilter::remove: same staging discipline,
aborting with none as soon as a counter reads 0, else staging the
decremented counter (the dbg! in the source is an identity wrapper). -/
def CountingBloomFilter.removeLoop (f : CountingBloomFilter) (bytes : List Nat)
    (hashFn : HashFn) : List Nat → List (Nat × Nat) → Option (List (Nat × Nat))
  | [], updates => some updates
  | seed :: seeds, updates =>
    let off := f.offsets (hashFn seed bytes)
    let bin := off.1
    let bitshift := off.2.1
    let counter_mask := off.2.2
    let counter :=
      match updLookup updates bin with
      | none => (counter_mask &&& f.counter_bins.getD bin 0) >>> bitshift
      | some v => (counter_mask &&& v) >>> bitshift
    if counter = 0 then none
    else
      let newWord :=
        match updLookup updates bin with
        | some v => (v &&& cmpl64 counter_mask) ||| ((counter - 1) <<< bitshift)
        | none => (f.counter_bins.getD bin 0 &&& cmpl64 counter_mask) |||
            ((counter - 1) <<< bitshift)
      f.removeLoop bytes hashFn seeds (updStore updates bin newWord)

/-- Commit phase shared by add and remove: write every staged word back to
its bin (the HashMap iteration order is immaterial because keys are
distinct bins). -/
def commitBins (updates : List (Nat × Nat)) : Nat → List Nat → List Nat
  | _, [] => []
  | i, w :: t => ((updLookup updates i).getD w) :: commitBins updates (i + 1) t

/-- CountingBloomFilter::add. -/
def CountingBloomFilter.add (f : CountingBloomFilter) (bytes : List Nat)
    (hashFn : HashFn) : Bool × CountingBloomFilter :=
  match f.addLoop bytes hashFn (List.range f.n_hashes) [] with
  | none => (false, f)
  | some updates =>
    (true, { f with counter_bins := commitBins updates 0 f.counter_bins })

/-- CountingBloomFilter::remove. -/
def CountingBloomFilter.remove (f : CountingBloomFilter) (bytes : List Nat)
    (hashFn : HashFn) : Bool × CountingBloomFilter :=
  match f.removeLoop bytes hashFn (List.range f.n_hashes) [] with
  | none => (false, f)
  | some updates =>
    (true, { f with counter_bins := commitBins updates 0 f.counter_bins })

/-- Counter reading used by contains and estimate:
(counter_mask & counter_bins[bin]) >> bitshift. -/
def CountingBloomFilter.readCounter (f : CountingBloomFilter) (hash : Nat) : Nat :=
  let off := f.offsets hash
  (off.2.2 &&& f.counter_bins.getD off.1 0) >>> off.2.1

/-- CountingBloomFilter::contains: true iff every one of the k counter
readings is positive. -/
def CountingBloomFilter.contains (f : CountingBloomFilter) (bytes : List Nat)
    (hashFn : HashFn) : Bool :=
  (List.range f.n_hashes).all fun seed =>
    decide (0 < f.readCounter (hashFn seed bytes))

/-- CountingBloomFilter::estimate: minimum of the k counter readings
(min().unwrap_or_default()). -/
def CountingBloomFilter.estimate (f : CountingBloomFilter) (bytes : List Nat)
    (hashFn : HashFn) : Nat :=
  (((List.range f.n_hashes).map fun seed =>
    f.readCounter (hashFn seed bytes)).min?).getD 0

/-- Reference form of the staged add, written from the spec words: pending
updates are a working copy of the whole counter array, so any later digest
landing in an already-touched bin observes the pending change; the first
saturated position aborts with no array to commit. -/
def CountingBloomFilter.addStagedSpec (f : CountingBloomFilter) (bytes : List Nat)
    (hashFn : HashFn) : List Nat → List Nat → Option (List Nat)
  | [], work => some work
  | seed :: seeds, work =>
    let off := f.offsets (hashFn seed bytes)
    let bin := off.1
    let bitshift := off.2.1
    let counter_mask := off.2.2
    let counter := (counter_mask &&& work.getD bin 0) >>> bitshift
    if counter = f.counter_max then none
    else
      f.addStagedSpec bytes hashFn seeds
        (work.set bin ((work.getD bin 0 &&& cmpl64 counter_mask) |||
          ((counter + 1) <<< bitshift)))

/-- Reference form of the staged remove, written from the spec words:
saturating decrement on a working copy, aborting on the first zero
counter. -/
def CountingBloomFilter.removeStagedSpec (f : CountingBloomFilter) (bytes : List Nat)
    (hashFn : HashFn) : List Nat → List Nat → Option (List Nat)
  | [], work => some work
  | seed :: seeds, work =>
    let off := f.offsets (hashFn seed bytes)
    let bin := off.1
    let bitshift := off.2.1
    let counter_mask := off.2.2
    let counter := (counter_mask &&& work.getD bin 0) >>> bitshift
    if counter = 0 then none
    else
      f.removeStagedSpec bytes hashFn seeds
        (work.set bin ((work.getD bin 0 &&& cmpl64 counter_mask) |||
          ((counter - 1) <<< bitshift)))

/-- Spec-level add: all-or-nothing commit of the working array. -/
def CountingBloomFilter.addSpec (f : CountingBloomFilter) (bytes : List Nat)
    (hashFn : HashFn) : Bool × CountingBloomFilter :=
  match f.addStagedSpec bytes hashFn (List.range f.n_hashes) f.counter_bins with
  | none => (false, f)
  | some work => (true, { f with counter_bins := work })

/-- Spec-level remove: all-or-nothing commit of the working array. -/
def CountingBloomFilter.removeSpec (f : CountingBloomFilter) (bytes : List Nat)
    (hashFn : HashFn) : Bool × CountingBloomFilter :=
  match f.removeStagedSpec bytes hashFn (List.range f.n_hashes) f.counter_bins with
  | none => (false, f)
  | some work => (true, { f with counter_bins := work })

/-- State of a CuckooFilter (src/cuckoo/mod.rs).  Fingerprints are byte
values; entries_per_bin models the reserved Vec capacity of every bin. -/
structure CuckooFilter where
  bins : List (List Nat)
  entries_per_bin : Nat
  max_kicks : Nat
deriving DecidableEq

/-- CuckooFilter::with_all_the_levers: empty bins with reserved capacity. -/
def with_all_the_levers (num_bins entries_per_bin max_kicks : Nat) : CuckooFilter :=
  { bins := List.replicate num_bins ([] : List Nat)
    entries_per_bin := entries_per_bin
    max_kicks := max_kicks }

/-- CuckooFilter::new: default 4 entries per bin and 100 max kicks. -/
def CuckooFilter.new (num_bins : Nat) : CuckooFilter :=
  with_all_the_levers num_bins 4 100

/-- Vec::swap_remove: replace the element at index i with the last element
and drop the last slot. -/
def swapRemove (l : List Nat) (i : Nat) : List Nat :=
  (l.set i (l.getD (l.length - 1) 0)).dropLast

/-- Eviction loop of CuckooFilter::add, fuelled by the remaining attempts
(max_kicks - attempt).  hashT is the pluggable placement hash, rng models
thread_rng (one draw per attempt index).  none models the panic of
`rng % bin.len()` when the target bin is both full and empty
(entries_per_bin = 0). -/
def cuckooAddGo (hashT : List Nat → Nat) (epb : Nat) (rng : Nat → Nat) :
    List (List Nat) → Nat → Nat → Nat → Nat → Option (Bool × List (List Nat))
  | bins, _, _, _, 0 => some (false, bins)
  | bins, fp, i, attempt, fuel + 1 =>
    let bin := bins.getD i []
    if bin.length < epb then some (true, bins.set i (bin ++ [fp]))
    else if attempt = 0 then
      cuckooAddGo hashT epb rng bins fp ((i ^^^ hashT [fp]) % bins.length) 1 fuel
    else if bin.length = 0 then none
    else
      let kick_idx := rng attempt % bin.length
      let kicked := bin.getD kick_idx 0
      let bins1 := bins.set i (swapRemove bin kick_idx ++ [fp])
      cuckooAddGo hashT epb rng bins1 kicked
        ((i ^^^ hashT [kicked]) % bins1.length) (attempt + 1) fuel

/-- CuckooFilter::add.  none models the panic of `hash % bins.len()` on a
zero-bin filter.  fpFn models the DefaultHasher fingerprint digest; the
`as u8` cast is the % 256. -/
def CuckooFilter.add (c : CuckooFilter) (bytes : List Nat)
    (hashT fpFn : List Nat → Nat) (rng : Nat → Nat) :
    Option (Bool × CuckooFilter) :=
  if c.bins.length = 0 then none
  else
    let fingerprint := fpFn bytes % 256
    let i := hashT bytes % c.bins.length
    (cuckooAddGo hashT c.entries_per_bin rng c.bins fingerprint i 0
      c.max_kicks).map fun r => (r.1, { c with bins := r.2 })

/-- CuckooFilter::remove: search the primary bin, then the alternate bin,
removing (swap_remove) the first found occurrence of the fingerprint.
none models the panic of `hash % bins.len()` on a zero-bin filter. -/
def CuckooFilter.remove (c : CuckooFilter) (bytes : List Nat)
    (hashT fpFn : List Nat → Nat) : Option (Bool × CuckooFilter) :=
  if c.bins.length = 0 then none
  else
    let fingerprint := fpFn bytes % 256
    let i := hashT bytes % c.bins.length
    let bin := c.bins.getD i []
    match bin.findIdx? (fun v => v = fingerprint) with
    | some rmi => some (true, { c with bins := c.bins.set i (swapRemove bin rmi) })
    | none =>
      let i2 := (i ^^^ hashT [fingerprint]) % c.bins.length
      let bin2 := c.bins.getD i2 []
      match bin2.findIdx? (fun v => v = fingerprint) with
      | some rmi => some (true, { c with bins := c.bins.set i2 (swapRemove bin2 rmi) })
      | none => some (false, c)

/-- CuckooFilter::contains: fingerprint present in the primary or the
alternate bin.  none models the panic of `hash % bins.len()` on a zero-bin
filter. -/
def CuckooFilter.contains (c : CuckooFilter) (bytes : List Nat)
    (hashT fpFn : List Nat → Nat) : Option Bool :=
  if c.bins.length = 0 then none
  else
    let fingerprint := fpFn bytes % 256
    let i := hashT bytes % c.bins.length
    let b1 := c.bins.getD i []
    some ((!b1.isEmpty && b1.contains fingerprint) ||
      (let i2 := (i ^^^ hashT [fingerprint]) % c.bins.length
       let b2 := c.bins.getD i2 []
       !b2.isEmpty && b2.contains fingerprint))

/-- Value of the packed counter in slot s of word w, for counter width
bpc. -/
def getSlot (bpc w s : Nat) : Nat := (w >>> (s * bpc)) &&& (2 ^ bpc - 1)

/-- Word w with the packed counter in slot s replaced by v (the
mask-clear-then-or pattern of add and remove). -/
def updWord (bpc w s v : Nat) : Nat :=
  (w &&& cmpl64 ((2 ^ bpc - 1) <<< (s * bpc))) ||| (v <<< (s * bpc))

/-- Packed-counter position (bin index, slot inside the word) determined by
a raw hash value, as computed by offsets. -/
def hashPos (f : CountingBloomFilter) (hash : Nat) : Nat × Nat :=
  (hash % f.counter_bins.length, hash % f.counters_per_bin)

/-- Counter positions touched by the k digests of a key. -/
def CountingBloomFilter.positions (f : CountingBloomFilter) (bytes : List Nat)
    (hashFn : HashFn) : List (Nat × Nat) :=
  (List.range f.n_hashes).map fun seed => hashPos f (hashFn seed bytes)

/-- Abstract sequential saturating-increment run over counter positions:
the normal form of the staged add. -/
def incRun (bpc maxv : Nat) : List (Nat × Nat) → List Nat → Option (List Nat)
  | [], work => some work
  | p :: ps, work =>
    let c := getSlot bpc (work.getD p.1 0) p.2
    if c = maxv then none
    else incRun bpc maxv ps
      (work.set p.1 (updWord bpc (work.getD p.1 0) p.2 (c + 1)))

/-- Abstract sequential guarded-decrement run over counter positions:
the normal form of the staged remove. -/
def decRun (bpc : Nat) : List (Nat × Nat) → List Nat → Option (List Nat)
  | [], work => some work
  | p :: ps, work =>
    let c := getSlot bpc (work.getD p.1 0) p.2
    if c = 0 then none
    else decRun bpc ps
      (work.set p.1 (updWord bpc (work.getD p.1 0) p.2 (c - 1)))

/-- Well-formedness of a counting bloom filter state, established by
construction and preserved by add and remove. -/
def CountingBloomFilter.wf (f : CountingBloomFilter) : Prop :=
  0 < f.bits_per_counter ∧
  f.counters_per_bin * f.bits_per_counter = 64 ∧
  f.counter_max = 2 ^ f.bits_per_counter - 1 ∧
  0 < f.n_hashes ∧
  0 < f.counter_bins.length ∧
  ∀ w ∈ f.counter_bins, w < 2 ^ 64

/-- Identity-seed hash function used for concrete evaluations. -/
def hfnSeed : HashFn := fun seed _ => seed

/-- Concrete well-formed counting bloom filter (one word, 4-bit counters,
two hashes) used by witnesses. -/
def cbfSmall : CountingBloomFilter :=
  { counter_bins := [0]
    counter_max := 15
    counters_per_bin := 16
    bits_per_counter := 4
    n_hashes := 2 }

/-- Counting bloom filter states reachable from construction by any
sequence of add and remove calls. -/
inductive ReachableCBF (hashFn : HashFn) : CountingBloomFilter → Prop
  | init (nc nh bits : Nat) (f : CountingBloomFilter)
      (h : with_bits_per_counter nc nh bits = some (Except.ok f)) :
      ReachableCBF hashFn f
  | add (f : CountingBloomFilter) (bytes : List Nat)
      (h : ReachableCBF hashFn f) : ReachableCBF hashFn (f.add bytes hashFn).2
  | remove (f : CountingBloomFilter) (bytes : List Nat)
      (h : ReachableCBF hashFn f) : ReachableCBF hashFn (f.remove bytes hashFn).2

/-- Concrete constructed filter: 9 counters, 3 hashes, 4-bit counters. -/
def cbf934 : CountingBloomFilter :=
  { counter_bins := [0]
    counter_max := 15
    counters_per_bin := 16
    bits_per_counter := 4
    n_hashes := 3 }

/-- Hash capability used by the C6 counterexample: the aliasing key [1]
digests to 0 and 34 (counter slots 0 and 2); every other key digests to
the seed itself. -/
def hfnC6 : HashFn := fun seed bytes =>
  if bytes = [1] then (if seed = 0 then 0 else 34) else seed

/-- State reached from CountingBloomFilter::new(9, 2) by adding the key
[1] fifteen times under hfnC6: slot 0 and slot 2 both saturated at 15. -/
def cbfC6 : CountingBloomFilter :=
  { counter_bins := [3855]
    counter_max := 15
    counters_per_bin := 16
    bits_per_counter := 4
    n_hashes := 2 }

/-- Readings of the k digests, in seed order: estimate is their min. -/
def CountingBloomFilter.readings (f : CountingBloomFilter) (bytes : List Nat)
    (hashFn : HashFn) : List Nat :=
  (List.range f.n_hashes).map fun seed => f.readCounter (hashFn seed bytes)

/-- Total number of stored fingerprints. -/
def CuckooFilter.occupancy (c : CuckooFilter) : Nat :=
  (c.bins.map List.length).sum

/-- Total number of stored occurrences of one fingerprint value. -/
def CuckooFilter.countFp (c : CuckooFilter) (g : Nat) : Nat :=
  (c.bins.map fun b => b.count g).sum

/-- Concrete cuckoo filter and hash/fingerprint capabilities used by
witnesses. -/
def cuckooW : CuckooFilter :=
  { bins := [[7], [9]], entries_per_bin := 4, max_kicks := 100 }

def hashTW : List Nat → Nat := fun _ => 0

def fpFnW : List Nat → Nat := fun _ => 7

/-- Fingerprint capability used by the C4 counterexample. -/
def fpFnC4 : List Nat → Nat := fun _ => 9

/-- Candidate-bin relation of the cuckoo filter: q is bin b itself or the
alternate bin (b XOR hash(fingerprint bytes)) mod L. -/
def orbitP (hashT : List Nat → Nat) (L g b q : Nat) : Prop :=
  q = b ∨ q = (b ^^^ hashT [g]) % L

/-- Sequences of cuckoo add calls that all returned true (the thread_rng
draws may differ per call). -/
inductive CuckooAdds (hashT fpFn : List Nat → Nat) (c0 : CuckooFilter) :
    CuckooFilter → List (List Nat) → Prop
  | nil : CuckooAdds hashT fpFn c0 c0 []
  | step (c c2 : CuckooFilter) (keys : List (List Nat)) (bytes : List Nat)
      (rng : Nat → Nat) (h : CuckooAdds hashT fpFn c0 c keys)
      (ha : c.add bytes hashT fpFn rng = some (true, c2)) :
      CuckooAdds hashT fpFn c0 c2 (bytes :: keys)

/-- Placement hash of the C3 counterexample (table of 3 bins):
keys [1],[2] land in bin 2, key [3] in bin 1; fingerprint bytes [10] hash
to 8 and [30] to 0. -/
def hashC3 : List Nat → Nat := fun b =>
  if b = [1] then 2
  else if b = [2] then 2
  else if b = [3] then 1
  else if b = [10] then 8
  else 0

/-- Fingerprint digest of the C3 counterexample. -/
def fpC3 : List Nat → Nat := fun b =>
  if b = [1] then 10
  else if b = [2] then 20
  else if b = [3] then 30
  else 0

theorem getSlot_le (bpc w s : Nat) : getSlot bpc w s ≤ 2 ^ bpc - 1 :=
  Nat.and_le_right

theorem getSlot_lt (bpc w s : Nat) : getSlot bpc w s < 2 ^ bpc :=
  Nat.lt_of_le_of_lt (getSlot_le bpc w s)
    (Nat.sub_lt (Nat.pos_pow_of_pos bpc (by omega)) Nat.one_pos)

/-- Reading through a shifted mask is reading the slot:
((m <<< sh) &&& w) >>> sh = (w >>> sh) &&& m. -/
theorem mask_read_eq (m w sh : Nat) :
    ((m <<< sh) &&& w) >>> sh = (w >>> sh) &&& m := by
  apply Nat.eq_of_testBit_eq
  intro j
  simp only [Nat.testBit_shiftRight, Nat.testBit_and, Nat.testBit_shiftLeft,
    Nat.add_sub_cancel_left, Nat.le_add_right, decide_True, Bool.true_and]
  exact Bool.and_comm _ _

/-- Reading a counter through its mask equals getSlot. -/
theorem mask_read_eq_getSlot (bpc w s : Nat) :
    (((2 ^ bpc - 1) <<< (s * bpc)) &&& w) >>> (s * bpc) = getSlot bpc w s :=
  mask_read_eq _ w _

theorem cmpl64_lt {m : Nat} (hm : m < 2 ^ 64) : cmpl64 m < 2 ^ 64 :=
  Nat.xor_lt_two_pow (by omega) hm

theorem shiftLeft_lt_64 {v bpc sh : Nat} (hv : v < 2 ^ bpc) (h : sh + bpc ≤ 64) :
    v <<< sh < 2 ^ 64 := by
  rw [Nat.shiftLeft_eq]
  calc v * 2 ^ sh < 2 ^ bpc * 2 ^ sh :=
        Nat.mul_lt_mul_of_lt_of_le hv (Nat.le_refl _) (Nat.two_pow_pos sh)
    _ = 2 ^ (bpc + sh) := by rw [Nat.pow_add, Nat.mul_comm]
    _ ≤ 2 ^ 64 := Nat.pow_le_pow_right (by omega) (by omega)

theorem updWord_lt (bpc w s v : Nat) (hv : v < 2 ^ bpc)
    (hs : s * bpc + bpc ≤ 64) : updWord bpc w s v < 2 ^ 64 := by
  apply Nat.or_lt_two_pow
  · exact Nat.and_lt_two_pow _ (cmpl64_lt (shiftLeft_lt_64
      (Nat.sub_lt (Nat.two_pow_pos bpc) Nat.one_pos) hs))
  · exact shiftLeft_lt_64 hv hs

theorem getSlot_updWord_self (bpc w s v : Nat) (hv : v < 2 ^ bpc)
    (hs : s * bpc + bpc ≤ 64) : getSlot bpc (updWord bpc w s v) s = v := by
  apply Nat.eq_of_testBit_eq
  intro j
  by_cases hj : j < bpc
  · have hb : s * bpc + j < 64 := by omega
    simp only [getSlot, updWord, cmpl64, Nat.testBit_and, Nat.testBit_shiftRight,
      Nat.testBit_or, Nat.testBit_xor, Nat.testBit_shiftLeft,
      Nat.testBit_two_pow_sub_one, Nat.add_sub_cancel_left, Nat.le_add_right,
      decide_True, Bool.true_and]
    simp [hj, hb]
  · have hvj : v.testBit j = false :=
      Nat.testBit_lt_two_pow (Nat.lt_of_lt_of_le hv
        (Nat.pow_le_pow_right (by omega) (by omega)))
    simp [getSlot, Nat.testBit_and, hj, hvj]

theorem getSlot_updWord_other (bpc w s v t : Nat) (hv : v < 2 ^ bpc)
    (hts : t ≠ s) (ht : t * bpc + bpc ≤ 64) :
    getSlot bpc (updWord bpc w s v) t = getSlot bpc w t := by
  apply Nat.eq_of_testBit_eq
  intro j
  by_cases hj : j < bpc
  · have hdisj : t * bpc + j < s * bpc ∨ s * bpc + bpc ≤ t * bpc + j := by
      rcases Nat.lt_or_ge t s with h | h
      · left
        have h1 : (t + 1) * bpc ≤ s * bpc := Nat.mul_le_mul_right bpc (by omega)
        have h2 : (t + 1) * bpc = t * bpc + bpc := by ring
        omega
      · have h0 : s < t := by omega
        right
        have h1 : (s + 1) * bpc ≤ t * bpc := Nat.mul_le_mul_right bpc (by omega)
        have h2 : (s + 1) * bpc = s * bpc + bpc := by ring
        omega
    have hb : t * bpc + j < 64 := by omega
    simp only [getSlot, updWord, cmpl64, Nat.testBit_and, Nat.testBit_shiftRight,
      Nat.testBit_or, Nat.testBit_xor, Nat.testBit_shiftLeft,
      Nat.testBit_two_pow_sub_one]
    rcases hdisj with hlt | hge
    · have hnle : ¬ (s * bpc ≤ t * bpc + j) := by omega
      simp [hnle, hb, hj]
    · have hle : s * bpc ≤ t * bpc + j := by omega
      have hbig : ¬ (t * bpc + j - s * bpc < bpc) := by omega
      have hvbit : v.testBit (t * bpc + j - s * bpc) = false :=
        Nat.testBit_lt_two_pow (Nat.lt_of_lt_of_le hv
          (Nat.pow_le_pow_right (by omega) (by omega)))
      simp [hle, hbig, hb, hj, hvbit]
  · simp [getSlot, Nat.testBit_and, hj]

theorem word_ext {bpc cpb w w2 : Nat} (hbpc : 0 < bpc) (hcb : cpb * bpc = 64)
    (hw : w < 2 ^ 64) (hw2 : w2 < 2 ^ 64)
    (h : ∀ s, s < cpb → getSlot bpc w s = getSlot bpc w2 s) : w = w2 := by
  apply Nat.eq_of_testBit_eq
  intro b
  by_cases hb : b < 64
  · have hs : b / bpc < cpb := by
      rw [Nat.div_lt_iff_lt_mul hbpc]
      omega
    have key : ∀ u : Nat, (getSlot bpc u (b / bpc)).testBit (b % bpc) = u.testBit b := by
      intro u
      have hdm : b / bpc * bpc + b % bpc = b := by
        rw [Nat.mul_comm]
        exact Nat.div_add_mod b bpc
      simp only [getSlot, Nat.testBit_and, Nat.testBit_shiftRight,
        Nat.testBit_two_pow_sub_one, hdm]
      simp [Nat.mod_lt b hbpc]
    rw [← key w, ← key w2, h (b / bpc) hs]
  · rw [Nat.testBit_lt_two_pow (Nat.lt_of_lt_of_le hw
        (Nat.pow_le_pow_right (by omega) (by omega))),
      Nat.testBit_lt_two_pow (Nat.lt_of_lt_of_le hw2
        (Nat.pow_le_pow_right (by omega) (by omega)))]

theorem addStagedSpec_eq_incRun (f : CountingBloomFilter) (bytes : List Nat)
    (hashFn : HashFn) (hmax : f.counter_max = 2 ^ f.bits_per_counter - 1) :
    ∀ seeds work,
      f.addStagedSpec bytes hashFn seeds work =
        incRun f.bits_per_counter f.counter_max
          (seeds.map fun s => hashPos f (hashFn s bytes)) work := by
  intro seeds
  induction seeds with
  | nil => intro work; rfl
  | cons seed rest ih =>
    intro work
    simp only [hmax] at ih ⊢
    simp only [CountingBloomFilter.addStagedSpec, CountingBloomFilter.offsets,
      List.map_cons, incRun, hashPos, hmax, mask_read_eq_getSlot]
    refine if_congr Iff.rfl rfl ?_
    rw [ih]
    rfl

theorem removeStagedSpec_eq_decRun (f : CountingBloomFilter) (bytes : List Nat)
    (hashFn : HashFn) (hmax : f.counter_max = 2 ^ f.bits_per_counter - 1) :
    ∀ seeds work,
      f.removeStagedSpec bytes hashFn seeds work =
        decRun f.bits_per_counter
          (seeds.map fun s => hashPos f (hashFn s bytes)) work := by
  intro seeds
  induction seeds with
  | nil => intro work; rfl
  | cons seed rest ih =>
    intro work
    simp only [CountingBloomFilter.removeStagedSpec, CountingBloomFilter.offsets,
      List.map_cons, decRun, hashPos, hmax, mask_read_eq_getSlot]
    refine if_congr Iff.rfl rfl ?_
    rw [ih]
    rfl

theorem updLookup_updStore_self (u : List (Nat × Nat)) (k v : Nat) :
    updLookup (updStore u k v) k = some v := by
  induction u with
  | nil => simp [updStore, updLookup]
  | cons h t ih =>
    obtain ⟨k1, v1⟩ := h
    by_cases hk : k1 = k
    · simp [updStore, updLookup, hk]
    · simp [updStore, updLookup, hk, ih]

theorem updLookup_updStore_other (u : List (Nat × Nat)) (k v b : Nat)
    (hb : b ≠ k) : updLookup (updStore u k v) b = updLookup u b := by
  have hkb : k ≠ b := Ne.symm hb
  induction u with
  | nil => simp [updStore, updLookup, hkb]
  | cons h t ih =>
    obtain ⟨k1, v1⟩ := h
    by_cases hk : k1 = k
    · subst hk
      simp [updStore, updLookup, hkb]
    · simp only [updStore, if_neg hk, updLookup]
      by_cases hk1b : k1 = b
      · simp [hk1b]
      · simp [hk1b, ih]

theorem commitBins_length (u : List (Nat × Nat)) :
    ∀ (i : Nat) (l : List Nat), (commitBins u i l).length = l.length := by
  intro i l
  induction l generalizing i with
  | nil => rfl
  | cons w t ih => simp [commitBins, ih]

theorem commitBins_getElem? (u : List (Nat × Nat)) :
    ∀ (l : List Nat) (i j : Nat),
      (commitBins u i l)[j]? = (l[j]?).map fun w => (updLookup u (i + j)).getD w := by
  intro l
  induction l with
  | nil => intro i j; simp [commitBins]
  | cons w t ih =>
    intro i j
    cases j with
    | zero => simp [commitBins]
    | succ j =>
      simp only [commitBins, List.getElem?_cons_succ, ih (i + 1) j]
      have : i + 1 + j = i + (j + 1) := by omega
      rw [this]

theorem commitBins_eq_of_inv (f : CountingBloomFilter) (updates : List (Nat × Nat))
    (work : List Nat) (hwlen : work.length = f.counter_bins.length)
    (hinv : ∀ b, (updLookup updates b).getD (f.counter_bins.getD b 0) = work.getD b 0) :
    commitBins updates 0 f.counter_bins = work := by
  apply List.ext_getElem?
  intro j
  rw [commitBins_getElem? updates f.counter_bins 0 j]
  have := hinv j
  simp only [List.getD_eq_getElem?_getD, Nat.zero_add] at this ⊢
  by_cases hj : j < f.counter_bins.length
  · have h2 : j < work.length := by omega
    rw [List.getElem?_eq_getElem hj] at this ⊢
    rw [List.getElem?_eq_getElem h2] at this ⊢
    simp only [Option.getD_some] at this
    exact congrArg some this
  · rw [List.getElem?_eq_none (by omega)] at this ⊢
    rw [List.getElem?_eq_none (l := work) (by omega)]
    rfl

theorem addLoop_eq_stagedSpec (f : CountingBloomFilter) (bytes : List Nat)
    (hashFn : HashFn) (hlen : 0 < f.counter_bins.length) :
    ∀ (seeds : List Nat) (updates : List (Nat × Nat)) (work : List Nat),
      work.length = f.counter_bins.length →
      (∀ b, (updLookup updates b).getD (f.counter_bins.getD b 0) = work.getD b 0) →
      (f.addLoop bytes hashFn seeds updates).map (fun u => commitBins u 0 f.counter_bins)
        = f.addStagedSpec bytes hashFn seeds work := by
  intro seeds
  induction seeds with
  | nil =>
    intro updates work hwlen hinv
    show some (commitBins updates 0 f.counter_bins) = some work
    rw [commitBins_eq_of_inv f updates work hwlen hinv]
  | cons seed rest ih =>
    intro updates work hwlen hinv
    have hbin : hashFn seed bytes % f.counter_bins.length < work.length := by
      rw [hwlen]
      exact Nat.mod_lt _ hlen
    have h0 := hinv (hashFn seed bytes % f.counter_bins.length)
    have hinvStep : ∀ (nw : Nat) (b : Nat),
        (updLookup (updStore updates (hashFn seed bytes % f.counter_bins.length) nw)
          b).getD (f.counter_bins.getD b 0) =
        (work.set (hashFn seed bytes % f.counter_bins.length) nw).getD b 0 := by
      intro nw b
      by_cases hb : b = hashFn seed bytes % f.counter_bins.length
      · subst hb
        rw [updLookup_updStore_self]
        simp only [List.getD_eq_getElem?_getD, List.getElem?_set_self hbin,
          Option.getD_some]
      · rw [updLookup_updStore_other _ _ _ _ hb]
        have h1 := hinv b
        simp only [List.getD_eq_getElem?_getD] at h1 ⊢
        rw [List.getElem?_set_ne (Ne.symm hb)]
        exact h1
    cases hu : updLookup updates (hashFn seed bytes % f.counter_bins.length) with
    | none =>
      rw [hu] at h0
      simp only [Option.getD_none] at h0
      simp only [CountingBloomFilter.addLoop, CountingBloomFilter.addStagedSpec,
        CountingBloomFilter.offsets, hu, h0]
      rw [apply_ite (Option.map fun u => commitBins u 0 f.counter_bins)]
      refine if_congr Iff.rfl rfl ?_
      exact ih _ _ (by rw [List.length_set]; exact hwlen) (hinvStep _)
    | some v =>
      rw [hu] at h0
      simp only [Option.getD_some] at h0
      simp only [CountingBloomFilter.addLoop, CountingBloomFilter.addStagedSpec,
        CountingBloomFilter.offsets, hu, h0]
      rw [apply_ite (Option.map fun u => commitBins u 0 f.counter_bins)]
      refine if_congr Iff.rfl rfl ?_
      exact ih _ _ (by rw [List.length_set]; exact hwlen) (hinvStep _)

theorem removeLoop_eq_stagedSpec (f : CountingBloomFilter) (bytes : List Nat)
    (hashFn : HashFn) (hlen : 0 < f.counter_bins.length) :
    ∀ (seeds : List Nat) (updates : List (Nat × Nat)) (work : List Nat),
      work.length = f.counter_bins.length →
      (∀ b, (updLookup updates b).getD (f.counter_bins.getD b 0) = work.getD b 0) →
      (f.removeLoop bytes hashFn seeds updates).map (fun u => commitBins u 0 f.counter_bins)
        = f.removeStagedSpec bytes hashFn seeds work := by
  intro seeds
  induction seeds with
  | nil =>
    intro updates work hwlen hinv
    show some (commitBins updates 0 f.counter_bins) = some work
    rw [commitBins_eq_of_inv f updates work hwlen hinv]
  | cons seed rest ih =>
    intro updates work hwlen hinv
    have hbin : hashFn seed bytes % f.counter_bins.length < work.length := by
      rw [hwlen]
      exact Nat.mod_lt _ hlen
    have h0 := hinv (hashFn seed bytes % f.counter_bins.length)
    have hinvStep : ∀ (nw : Nat) (b : Nat),
        (updLookup (updStore updates (hashFn seed bytes % f.counter_bins.length) nw)
          b).getD (f.counter_bins.getD b 0) =
        (work.set (hashFn seed bytes % f.counter_bins.length) nw).getD b 0 := by
      intro nw b
      by_cases hb : b = hashFn seed bytes % f.counter_bins.length
      · subst hb
        rw [updLookup_updStore_self]
        simp only [List.getD_eq_getElem?_getD, List.getElem?_set_self hbin,
          Option.getD_some]
      · rw [updLookup_updStore_other _ _ _ _ hb]
        have h1 := hinv b
        simp only [List.getD_eq_getElem?_getD] at h1 ⊢
        rw [List.getElem?_set_ne (Ne.symm hb)]
        exact h1
    cases hu : updLookup updates (hashFn seed bytes % f.counter_bins.length) with
    | none =>
      rw [hu] at h0
      simp only [Option.getD_none] at h0
      simp only [CountingBloomFilter.removeLoop, CountingBloomFilter.removeStagedSpec,
        CountingBloomFilter.offsets, hu, h0]
      rw [apply_ite (Option.map fun u => commitBins u 0 f.counter_bins)]
      refine if_congr Iff.rfl rfl ?_
      exact ih _ _ (by rw [List.length_set]; exact hwlen) (hinvStep _)
    | some v =>
      rw [hu] at h0
      simp only [Option.getD_some] at h0
      simp only [CountingBloomFilter.removeLoop, CountingBloomFilter.removeStagedSpec,
        CountingBloomFilter.offsets, hu, h0]
      rw [apply_ite (Option.map fun u => commitBins u 0 f.counter_bins)]
      refine if_congr Iff.rfl rfl ?_
      exact ih _ _ (by rw [List.length_set]; exact hwlen) (hinvStep _)

theorem add_eq_addSpec (f : CountingBloomFilter) (bytes : List Nat)
    (hashFn : HashFn) (hlen : 0 < f.counter_bins.length) :
    f.add bytes hashFn = f.addSpec bytes hashFn := by
  have key := addLoop_eq_stagedSpec f bytes hashFn hlen (List.range f.n_hashes) []
    f.counter_bins rfl (by intro b; rfl)
  unfold CountingBloomFilter.add CountingBloomFilter.addSpec
  cases h : f.addLoop bytes hashFn (List.range f.n_hashes) [] with
  | none =>
    rw [h] at key
    rw [← key]
    rfl
  | some u =>
    rw [h] at key
    rw [← key]
    rfl

theorem remove_eq_removeSpec (f : CountingBloomFilter) (bytes : List Nat)
    (hashFn : HashFn) (hlen : 0 < f.counter_bins.length) :
    f.remove bytes hashFn = f.removeSpec bytes hashFn := by
  have key := removeLoop_eq_stagedSpec f bytes hashFn hlen (List.range f.n_hashes) []
    f.counter_bins rfl (by intro b; rfl)
  unfold CountingBloomFilter.remove CountingBloomFilter.removeSpec
  cases h : f.removeLoop bytes hashFn (List.range f.n_hashes) [] with
  | none =>
    rw [h] at key
    rw [← key]
    rfl
  | some u =>
    rw [h] at key
    rw [← key]
    rfl

theorem add_false_unchanged (f : CountingBloomFilter) (bytes : List Nat)
    (hashFn : HashFn) (h : (f.add bytes hashFn).1 = false) :
    (f.add bytes hashFn).2 = f := by
  unfold CountingBloomFilter.add at h ⊢
  cases hx : f.addLoop bytes hashFn (List.range f.n_hashes) [] with
  | none => rfl
  | some u =>
    rw [hx] at h
    exact Bool.noConfusion h

theorem remove_false_unchanged (f : CountingBloomFilter) (bytes : List Nat)
    (hashFn : HashFn) (h : (f.remove bytes hashFn).1 = false) :
    (f.remove bytes hashFn).2 = f := by
  unfold CountingBloomFilter.remove at h ⊢
  cases hx : f.removeLoop bytes hashFn (List.range f.n_hashes) [] with
  | none => rfl
  | some u =>
    rw [hx] at h
    exact Bool.noConfusion h

/-- C1: add and remove on the counting bloom filter apply all k counter
updates as a single unit.  They coincide with the spec-level staged update
on a pending working copy of the array (so two digests landing in the same
bin observe each other's pending change and every saturation/zero test is
made against the staged value), and whenever the operation returns false
the backing counter array is left completely unchanged; on true the staged
updates are committed. -/
theorem C1_counting_add_remove_staged_atomicity (f : CountingBloomFilter)
    (bytes : List Nat) (hashFn : HashFn) (hlen : 0 < f.counter_bins.length) :
    f.add bytes hashFn = f.addSpec bytes hashFn ∧
    f.remove bytes hashFn = f.removeSpec bytes hashFn ∧
    ((f.add bytes hashFn).1 = false → (f.add bytes hashFn).2 = f) ∧
    ((f.remove bytes hashFn).1 = false → (f.remove bytes hashFn).2 = f) := by
  exact ⟨add_eq_addSpec f bytes hashFn hlen,
    remove_eq_removeSpec f bytes hashFn hlen,
    add_false_unchanged f bytes hashFn,
    remove_false_unchanged f bytes hashFn⟩

/-- C1 witness: the atomicity theorem evaluated on a concrete filter. -/
theorem C1_witness :
    0 < cbfSmall.counter_bins.length ∧
    (cbfSmall.add [0] hfnSeed = cbfSmall.addSpec [0] hfnSeed ∧
     cbfSmall.remove [0] hfnSeed = cbfSmall.removeSpec [0] hfnSeed ∧
     ((cbfSmall.add [0] hfnSeed).1 = false → (cbfSmall.add [0] hfnSeed).2 = cbfSmall) ∧
     ((cbfSmall.remove [0] hfnSeed).1 = false →
       (cbfSmall.remove [0] hfnSeed).2 = cbfSmall)) :=
  ⟨by decide, C1_counting_add_remove_staged_atomicity cbfSmall [0] hfnSeed (by decide)⟩

theorem getSlot_eq_zero_of_big {bpc cpb w s : Nat} (hcb : cpb * bpc = 64)
    (hw : w < 2 ^ 64) (hs : cpb ≤ s) : getSlot bpc w s = 0 := by
  unfold getSlot
  have h1 : w >>> (s * bpc) = 0 := by
    rw [Nat.shiftRight_eq_div_pow]
    apply Nat.div_eq_of_lt
    calc w < 2 ^ 64 := hw
      _ ≤ 2 ^ (s * bpc) := Nat.pow_le_pow_right (by omega)
          (by rw [← hcb]; exact Nat.mul_le_mul_right bpc hs)
  rw [h1]
  simp

theorem getD_set_self {l : List Nat} {i : Nat} {a : Nat} (h : i < l.length) :
    (l.set i a).getD i 0 = a := by
  simp [List.getD_eq_getElem?_getD, List.getElem?_set_self h]

theorem getD_set_other {l : List Nat} {i j : Nat} {a : Nat} (h : i ≠ j) :
    (l.set i a).getD j 0 = l.getD j 0 := by
  simp [List.getD_eq_getElem?_getD, List.getElem?_set_ne h]

theorem getD_out_of_range {l : List Nat} {j : Nat} (h : l.length ≤ j) :
    l.getD j 0 = 0 := by
  simp [List.getD_eq_getElem?_getD, List.getElem?_eq_none h]

theorem getD_mem_of_lt {l : List Nat} {i : Nat} (h : i < l.length) :
    l.getD i 0 ∈ l := by
  rw [List.getD_eq_getElem?_getD, List.getElem?_eq_getElem h]
  exact List.getElem_mem h

/-- Full characterization of a successful increment run: lengths and word
bounds are preserved and every packed counter grows by exactly the number
of occurrences of its position in the processed list. -/
theorem incRun_some_spec {bpc cpb : Nat} (hcb : cpb * bpc = 64) :
    ∀ (ps : List (Nat × Nat)) (work work2 : List Nat),
      (∀ p ∈ ps, p.1 < work.length ∧ p.2 < cpb) →
      (∀ w ∈ work, w < 2 ^ 64) →
      incRun bpc (2 ^ bpc - 1) ps work = some work2 →
      work2.length = work.length ∧ (∀ w ∈ work2, w < 2 ^ 64) ∧
      ∀ b s, getSlot bpc (work2.getD b 0) s =
        getSlot bpc (work.getD b 0) s + ps.count (b, s) := by
  intro ps
  induction ps with
  | nil =>
    intro work work2 hin hw h
    simp only [incRun, Option.some_inj] at h
    subst h
    exact ⟨rfl, hw, fun b s => by simp⟩
  | cons p rest ih =>
    obtain ⟨pb, pq⟩ := p
    intro work work2 hin hw h
    simp only [incRun] at h
    by_cases hc : getSlot bpc (work.getD pb 0) pq = 2 ^ bpc - 1
    · rw [if_pos hc] at h
      exact absurd h (by simp)
    · rw [if_neg hc] at h
      have hp := hin (pb, pq) (by simp)
      have hcle : getSlot bpc (work.getD pb 0) pq + 1 < 2 ^ bpc := by
        have := getSlot_le bpc (work.getD pb 0) pq
        have h2 : (0:Nat) < 2 ^ bpc := Nat.two_pow_pos bpc
        omega
      have hsle : pq * bpc + bpc ≤ 64 := by
        have h1 : (pq + 1) * bpc ≤ cpb * bpc :=
          Nat.mul_le_mul_right bpc (by omega)
        have h2 : (pq + 1) * bpc = pq * bpc + bpc := by ring
        omega
      set w1 := updWord bpc (work.getD pb 0) pq
        (getSlot bpc (work.getD pb 0) pq + 1) with hw1
      have hw1lt : w1 < 2 ^ 64 := updWord_lt _ _ _ _ hcle hsle
      have hwork1 : ∀ w ∈ work.set pb w1, w < 2 ^ 64 := by
        intro w hwmem
        rcases List.mem_or_eq_of_mem_set hwmem with h1 | h1
        · exact hw w h1
        · rw [h1]; exact hw1lt
      have hin1 : ∀ q ∈ rest, q.1 < (work.set pb w1).length ∧ q.2 < cpb := by
        intro q hq
        have := hin q (by simp [hq])
        simpa using this
      obtain ⟨hlen2, hb2, hslots⟩ := ih (work.set pb w1) work2 hin1 hwork1 h
      refine ⟨by simpa using hlen2, hb2, ?_⟩
      intro b s
      rw [hslots b s]
      by_cases hbp : b = pb
      · subst hbp
        by_cases hsp : s = pq
        · subst hsp
          rw [getD_set_self hp.1, hw1, getSlot_updWord_self _ _ _ _ hcle hsle]
          rw [List.count_cons_self]
          omega
        · rw [getD_set_self hp.1, hw1]
          have hne : ¬ ((b, s) = (b, pq)) := by
            intro hx
            exact hsp (congrArg Prod.snd hx)
          have hbeq : (((b, pq) : Nat × Nat) == (b, s)) = false := by
            rw [beq_eq_false_iff_ne]
            intro hx
            exact hne hx.symm
          have hcnt : List.count (b, s) ((b, pq) :: rest) = List.count (b, s) rest := by
            rw [List.count_cons]
            simp [hbeq]
          rw [hcnt]
          by_cases hscpb : s < cpb
          · rw [getSlot_updWord_other _ _ _ _ _ hcle (by omega)
              (by
                have h1 : (s + 1) * bpc ≤ cpb * bpc :=
                  Nat.mul_le_mul_right bpc (by omega)
                have h2 : (s + 1) * bpc = s * bpc + bpc := by ring
                omega)]
          · rw [getSlot_eq_zero_of_big hcb hw1lt (by omega),
              getSlot_eq_zero_of_big hcb (hw _ (getD_mem_of_lt hp.1)) (by omega)]
      · rw [getD_set_other (fun hx => hbp hx.symm)]
        have hne : ¬ ((b, s) = (pb, pq)) := by
          intro hx
          exact hbp (congrArg Prod.fst hx)
        have hbeq : (((pb, pq) : Nat × Nat) == (b, s)) = false := by
          rw [beq_eq_false_iff_ne]
          intro hx
          exact hne hx.symm
        have hcnt : List.count (b, s) ((pb, pq) :: rest) = List.count (b, s) rest := by
          rw [List.count_cons]
          simp [hbeq]
        rw [hcnt]

/-- Full characterization of a decrement run when every touched counter is
at least its number of occurrences: the run succeeds and every packed
counter shrinks by exactly that number. -/
theorem decRun_spec {bpc cpb : Nat} (hcb : cpb * bpc = 64) :
    ∀ (ps : List (Nat × Nat)) (work : List Nat),
      (∀ p ∈ ps, p.1 < work.length ∧ p.2 < cpb) →
      (∀ w ∈ work, w < 2 ^ 64) →
      (∀ p ∈ ps, ps.count p ≤ getSlot bpc (work.getD p.1 0) p.2) →
      ∃ work2, decRun bpc ps work = some work2 ∧
        work2.length = work.length ∧ (∀ w ∈ work2, w < 2 ^ 64) ∧
        ∀ b s, getSlot bpc (work2.getD b 0) s + ps.count (b, s) =
          getSlot bpc (work.getD b 0) s := by
  intro ps
  induction ps with
  | nil =>
    intro work hin hw hcount
    exact ⟨work, rfl, rfl, hw, fun b s => by simp⟩
  | cons p rest ih =>
    obtain ⟨pb, pq⟩ := p
    intro work hin hw hcount
    have hp : pb < work.length ∧ pq < cpb := hin (pb, pq) (by simp)
    have hc1 : List.count ((pb, pq) : Nat × Nat) ((pb, pq) :: rest) ≤
        getSlot bpc (work.getD pb 0) pq := hcount (pb, pq) (by simp)
    rw [List.count_cons_self] at hc1
    have hcpos : getSlot bpc (work.getD pb 0) pq ≠ 0 := by omega
    have hclt : getSlot bpc (work.getD pb 0) pq - 1 < 2 ^ bpc := by
      have := getSlot_lt bpc (work.getD pb 0) pq
      omega
    have hsle : pq * bpc + bpc ≤ 64 := by
      have h1 : (pq + 1) * bpc ≤ cpb * bpc := Nat.mul_le_mul_right bpc (by omega)
      have h2 : (pq + 1) * bpc = pq * bpc + bpc := by ring
      omega
    set w1 := updWord bpc (work.getD pb 0) pq
      (getSlot bpc (work.getD pb 0) pq - 1) with hw1
    have hw1lt : w1 < 2 ^ 64 := updWord_lt _ _ _ _ hclt hsle
    have hwork1 : ∀ w ∈ work.set pb w1, w < 2 ^ 64 := by
      intro w hwmem
      rcases List.mem_or_eq_of_mem_set hwmem with h1 | h1
      · exact hw w h1
      · rw [h1]; exact hw1lt
    have hin1 : ∀ q ∈ rest, q.1 < (work.set pb w1).length ∧ q.2 < cpb := by
      intro q hq
      have := hin q (by simp [hq])
      simpa using this
    have hslot1 : ∀ b s, (b, s) ≠ ((pb, pq) : Nat × Nat) → s < cpb →
        getSlot bpc ((work.set pb w1).getD b 0) s = getSlot bpc (work.getD b 0) s := by
      intro b s hne hscpb
      by_cases hbp : b = pb
      · subst hbp
        have hspq : s ≠ pq := by
          intro hx
          exact hne (by rw [hx])
        rw [getD_set_self hp.1, hw1]
        exact getSlot_updWord_other _ _ _ _ _ hclt hspq
          (by
            have h1 : (s + 1) * bpc ≤ cpb * bpc := Nat.mul_le_mul_right bpc (by omega)
            have h2 : (s + 1) * bpc = s * bpc + bpc := by ring
            omega)
      · rw [getD_set_other (fun hx => hbp hx.symm)]
    have hcount1 : ∀ q ∈ rest, rest.count q ≤
        getSlot bpc ((work.set pb w1).getD q.1 0) q.2 := by
      intro q hq
      by_cases hqp : q = ((pb, pq) : Nat × Nat)
      · subst hqp
        rw [getD_set_self hp.1, hw1, getSlot_updWord_self _ _ _ _ hclt hsle]
        have : List.count ((pb, pq) : Nat × Nat) ((pb, pq) :: rest) =
            List.count ((pb, pq) : Nat × Nat) rest + 1 := List.count_cons_self _ _
        omega
      · have hqin := hin q (by simp [hq])
        rw [hslot1 q.1 q.2 (by rwa [← Prod.mk.eta (p := q)] at hqp) hqin.2]
        have hc2 := hcount q (by simp [hq])
        rw [List.count_cons] at hc2
        omega
    obtain ⟨work2, hrun, hlen2, hb2, hslots⟩ := ih (work.set pb w1) hin1 hwork1 hcount1
    refine ⟨work2, ?_, by simpa using hlen2, hb2, ?_⟩
    · simp only [decRun]
      rw [if_neg hcpos]
      exact hrun
    · intro b s
      by_cases hbs : ((b, s) : Nat × Nat) = (pb, pq)
      · have hb' : b = pb := congrArg Prod.fst hbs
        have hs' : s = pq := congrArg Prod.snd hbs
        subst hb'
        subst hs'
        have h1 := hslots b s
        rw [getD_set_self hp.1, hw1, getSlot_updWord_self _ _ _ _ hclt hsle] at h1
        rw [List.count_cons_self]
        omega
      · have h1 := hslots b s
        have hbeq : (((pb, pq) : Nat × Nat) == (b, s)) = false := by
          rw [beq_eq_false_iff_ne]
          exact fun hx => hbs hx.symm
        have hcnt : List.count ((b, s) : Nat × Nat) ((pb, pq) :: rest) =
            List.count ((b, s) : Nat × Nat) rest := by
          rw [List.count_cons, hbeq]
          simp
        rw [hcnt]
        by_cases hscpb : s < cpb
        · rw [hslot1 b s hbs hscpb] at h1
          exact h1
        · rw [h1]
          by_cases hbp : b = pb
          · subst hbp
            rw [getD_set_self hp.1]
            rw [getSlot_eq_zero_of_big hcb hw1lt (by omega),
              getSlot_eq_zero_of_big hcb (hw _ (getD_mem_of_lt hp.1)) (by omega)]
          · rw [getD_set_other (fun hx => hbp hx.symm)]

theorem bins_ext {bpc cpb : Nat} (hbpc : 0 < bpc) (hcb : cpb * bpc = 64)
    {l1 l2 : List Nat} (hlen : l1.length = l2.length)
    (h1 : ∀ w ∈ l1, w < 2 ^ 64) (h2 : ∀ w ∈ l2, w < 2 ^ 64)
    (h : ∀ b s, getSlot bpc (l1.getD b 0) s = getSlot bpc (l2.getD b 0) s) :
    l1 = l2 := by
  apply List.ext_getElem hlen
  intro i hi1 hi2
  apply word_ext hbpc hcb (h1 _ (List.getElem_mem hi1)) (h2 _ (List.getElem_mem hi2))
  intro s _
  have hx := h i s
  simp only [List.getD_eq_getElem?_getD, List.getElem?_eq_getElem hi1,
    List.getElem?_eq_getElem hi2, Option.getD_some] at hx
  exact hx

/-- Construction establishes well-formedness. -/
theorem wf_of_construction {nc nh bits : Nat} {f : CountingBloomFilter}
    (h : with_bits_per_counter nc nh bits = some (Except.ok f)) : f.wf := by
  unfold with_bits_per_counter at h
  split_ifs at h with h1 h2 h3 h4 h5
  · exact absurd h (by simp)
  · exact absurd h (by simp)
  · exact absurd h (by simp)
  · exact absurd h (by simp)
  · simp only [Option.some_inj, Except.ok.injEq] at h
    subst h
    push_neg at h5
    have hdvd : bits ∣ 64 := Nat.dvd_of_mod_eq_zero (by omega)
    have hbits : 0 < bits := by omega
    have hcpb : 0 < 64 / bits := Nat.div_pos (by omega) hbits
    refine ⟨hbits, ?_, ?_, ?_, ?_, ?_⟩
    · exact Nat.div_mul_cancel hdvd
    · show calc_max_counter bits = 2 ^ bits - 1
      unfold calc_max_counter
      split_ifs with hb
      · rw [hb]
      · rfl
    · show 0 < nh
      omega
    · show 0 < (List.replicate ((nc + (64 / bits - 1)) / (64 / bits)) 0).length
      rw [List.length_replicate]
      exact Nat.div_pos (by omega) hcpb
    · intro w hw
      rw [List.eq_of_mem_replicate hw]
      exact Nat.two_pow_pos 64

/-- All counter positions of a key are in range for a well-formed filter. -/
theorem positions_ok (f : CountingBloomFilter) (hwf : f.wf) (bytes : List Nat)
    (hashFn : HashFn) :
    ∀ p ∈ f.positions bytes hashFn,
      p.1 < f.counter_bins.length ∧ p.2 < f.counters_per_bin := by
  obtain ⟨hbpc, hcb, _, _, hlen, _⟩ := hwf
  intro p hp
  unfold CountingBloomFilter.positions at hp
  obtain ⟨seed, _, hps⟩ := List.mem_map.mp hp
  subst hps
  have hcpb : 0 < f.counters_per_bin := by
    by_contra hx
    push_neg at hx
    interval_cases hcpbv : f.counters_per_bin
    omega
  exact ⟨Nat.mod_lt _ hlen, Nat.mod_lt _ hcpb⟩

/-- Characterization of a successful decrement run: the counter values
were at least the occurrence counts and shrink by exactly them. -/
theorem decRun_some_spec {bpc cpb : Nat} (hcb : cpb * bpc = 64) :
    ∀ (ps : List (Nat × Nat)) (work work2 : List Nat),
      (∀ p ∈ ps, p.1 < work.length ∧ p.2 < cpb) →
      (∀ w ∈ work, w < 2 ^ 64) →
      decRun bpc ps work = some work2 →
      work2.length = work.length ∧ (∀ w ∈ work2, w < 2 ^ 64) ∧
      (∀ b s, getSlot bpc (work2.getD b 0) s + ps.count (b, s) =
        getSlot bpc (work.getD b 0) s) := by
  intro ps
  induction ps with
  | nil =>
    intro work work2 hin hw h
    simp only [decRun, Option.some_inj] at h
    subst h
    exact ⟨rfl, hw, fun b s => by simp⟩
  | cons p rest ih =>
    obtain ⟨pb, pq⟩ := p
    intro work work2 hin hw h
    simp only [decRun] at h
    by_cases hc : getSlot bpc (work.getD pb 0) pq = 0
    · rw [if_pos hc] at h
      exact absurd h (by simp)
    · rw [if_neg hc] at h
      have hp : pb < work.length ∧ pq < cpb := hin (pb, pq) (by simp)
      have hclt : getSlot bpc (work.getD pb 0) pq - 1 < 2 ^ bpc := by
        have := getSlot_lt bpc (work.getD pb 0) pq
        omega
      have hsle : pq * bpc + bpc ≤ 64 := by
        have hx1 : (pq + 1) * bpc ≤ cpb * bpc := Nat.mul_le_mul_right bpc (by omega)
        have hx2 : (pq + 1) * bpc = pq * bpc + bpc := by ring
        omega
      set w1 := updWord bpc (work.getD pb 0) pq
        (getSlot bpc (work.getD pb 0) pq - 1) with hw1
      have hw1lt : w1 < 2 ^ 64 := updWord_lt _ _ _ _ hclt hsle
      have hwork1 : ∀ w ∈ work.set pb w1, w < 2 ^ 64 := by
        intro w hwmem
        rcases List.mem_or_eq_of_mem_set hwmem with hx | hx
        · exact hw w hx
        · rw [hx]; exact hw1lt
      have hin1 : ∀ q ∈ rest, q.1 < (work.set pb w1).length ∧ q.2 < cpb := by
        intro q hq
        have := hin q (by simp [hq])
        simpa using this
      obtain ⟨hlen2, hb2, hslots⟩ := ih (work.set pb w1) work2 hin1 hwork1 h
      refine ⟨by simpa using hlen2, hb2, ?_⟩
      intro b s
      have h1 := hslots b s
      by_cases hbs : ((b, s) : Nat × Nat) = (pb, pq)
      · have hb1 : b = pb := congrArg Prod.fst hbs
        have hs1 : s = pq := congrArg Prod.snd hbs
        subst hb1
        subst hs1
        rw [getD_set_self hp.1, hw1, getSlot_updWord_self _ _ _ _ hclt hsle] at h1
        rw [List.count_cons_self]
        omega
      · have hbeq : (((b, s) : Nat × Nat) == (pb, pq)) = false :=
          beq_eq_false_iff_ne.mpr hbs
        have hbeq2 : (((pb, pq) : Nat × Nat) == (b, s)) = false :=
          beq_eq_false_iff_ne.mpr (fun hx => hbs hx.symm)
        have hcnt : List.count ((b, s) : Nat × Nat) ((pb, pq) :: rest) =
            List.count ((b, s) : Nat × Nat) rest := by
          rw [List.count_cons, hbeq2]
          simp
        rw [hcnt]
        by_cases hbp : b = pb
        · subst hbp
          have hspq : s ≠ pq := by
            intro hx
            exact hbs (by rw [hx])
          by_cases hscpb : s < cpb
          · rw [getD_set_self hp.1, hw1,
              getSlot_updWord_other _ _ _ _ _ hclt hspq
                (by
                  have hx1 : (s + 1) * bpc ≤ cpb * bpc :=
                    Nat.mul_le_mul_right bpc (by omega)
                  have hx2 : (s + 1) * bpc = s * bpc + bpc := by ring
                  omega)] at h1
            exact h1
          · rw [getD_set_self hp.1] at h1
            rw [getSlot_eq_zero_of_big hcb hw1lt (by omega)] at h1
            rw [getSlot_eq_zero_of_big hcb (hw _ (getD_mem_of_lt hp.1)) (by omega)]
            exact h1
        · rw [getD_set_other (fun hx => hbp hx.symm)] at h1
          exact h1

theorem addSpec_eq_incRun_match (f : CountingBloomFilter) (bytes : List Nat)
    (hashFn : HashFn) (hmax : f.counter_max = 2 ^ f.bits_per_counter - 1) :
    f.addSpec bytes hashFn =
      match incRun f.bits_per_counter (2 ^ f.bits_per_counter - 1)
          (f.positions bytes hashFn) f.counter_bins with
      | none => (false, f)
      | some work => (true, { f with counter_bins := work }) := by
  unfold CountingBloomFilter.addSpec
  rw [addStagedSpec_eq_incRun f bytes hashFn hmax, hmax]
  rfl

theorem removeSpec_eq_decRun_match (f : CountingBloomFilter) (bytes : List Nat)
    (hashFn : HashFn) (hmax : f.counter_max = 2 ^ f.bits_per_counter - 1) :
    f.removeSpec bytes hashFn =
      match decRun f.bits_per_counter (f.positions bytes hashFn) f.counter_bins with
      | none => (false, f)
      | some work => (true, { f with counter_bins := work }) := by
  unfold CountingBloomFilter.removeSpec
  rw [removeStagedSpec_eq_decRun f bytes hashFn hmax]
  rfl

/-- What a successful add commits: every packed counter grows by the number
of digests mapped to it; all other fields are unchanged. -/
theorem add_true_spec (f : CountingBloomFilter) (hwf : f.wf) (bytes : List Nat)
    (hashFn : HashFn) (h : (f.add bytes hashFn).1 = true) :
    (f.add bytes hashFn).2.counter_max = f.counter_max ∧
    (f.add bytes hashFn).2.counters_per_bin = f.counters_per_bin ∧
    (f.add bytes hashFn).2.bits_per_counter = f.bits_per_counter ∧
    (f.add bytes hashFn).2.n_hashes = f.n_hashes ∧
    (f.add bytes hashFn).2.counter_bins.length = f.counter_bins.length ∧
    (∀ w ∈ (f.add bytes hashFn).2.counter_bins, w < 2 ^ 64) ∧
    ∀ b s, getSlot f.bits_per_counter
        ((f.add bytes hashFn).2.counter_bins.getD b 0) s =
      getSlot f.bits_per_counter (f.counter_bins.getD b 0) s +
        (f.positions bytes hashFn).count (b, s) := by
  obtain ⟨hbpc, hcb, hmax, hnh, hlen, hwords⟩ := hwf
  have hadd := add_eq_addSpec f bytes hashFn hlen
  have hmatch := addSpec_eq_incRun_match f bytes hashFn hmax
  cases hrun : incRun f.bits_per_counter (2 ^ f.bits_per_counter - 1)
      (f.positions bytes hashFn) f.counter_bins with
  | none =>
    rw [hrun] at hmatch
    rw [hadd, hmatch] at h
    exact absurd h (by simp)
  | some work2 =>
    rw [hrun] at hmatch
    rw [hadd, hmatch]
    obtain ⟨hl2, hb2, hs2⟩ := incRun_some_spec hcb (f.positions bytes hashFn)
      f.counter_bins work2
      (positions_ok f ⟨hbpc, hcb, hmax, hnh, hlen, hwords⟩ bytes hashFn)
      hwords hrun
    exact ⟨rfl, rfl, rfl, rfl, hl2, hb2, hs2⟩

/-- What a successful remove commits: every packed counter was at least its
digest count and shrinks by exactly it; all other fields unchanged. -/
theorem remove_true_spec (f : CountingBloomFilter) (hwf : f.wf) (bytes : List Nat)
    (hashFn : HashFn) (h : (f.remove bytes hashFn).1 = true) :
    (f.remove bytes hashFn).2.counter_max = f.counter_max ∧
    (f.remove bytes hashFn).2.counters_per_bin = f.counters_per_bin ∧
    (f.remove bytes hashFn).2.bits_per_counter = f.bits_per_counter ∧
    (f.remove bytes hashFn).2.n_hashes = f.n_hashes ∧
    (f.remove bytes hashFn).2.counter_bins.length = f.counter_bins.length ∧
    (∀ w ∈ (f.remove bytes hashFn).2.counter_bins, w < 2 ^ 64) ∧
    ∀ b s, getSlot f.bits_per_counter
        ((f.remove bytes hashFn).2.counter_bins.getD b 0) s +
        (f.positions bytes hashFn).count (b, s) =
      getSlot f.bits_per_counter (f.counter_bins.getD b 0) s := by
  obtain ⟨hbpc, hcb, hmax, hnh, hlen, hwords⟩ := hwf
  have hrem := remove_eq_removeSpec f bytes hashFn hlen
  have hmatch := removeSpec_eq_decRun_match f bytes hashFn hmax
  cases hrun : decRun f.bits_per_counter (f.positions bytes hashFn) f.counter_bins with
  | none =>
    rw [hrun] at hmatch
    rw [hrem, hmatch] at h
    exact absurd h (by simp)
  | some work2 =>
    rw [hrun] at hmatch
    rw [hrem, hmatch]
    obtain ⟨hl2, hb2, hs2⟩ := decRun_some_spec hcb (f.positions bytes hashFn)
      f.counter_bins work2
      (positions_ok f ⟨hbpc, hcb, hmax, hnh, hlen, hwords⟩ bytes hashFn)
      hwords hrun
    exact ⟨rfl, rfl, rfl, rfl, hl2, hb2, hs2⟩

/-- When every touched counter is at least its digest count, remove
succeeds. -/
theorem remove_succeeds_of_counts (f : CountingBloomFilter) (hwf : f.wf)
    (bytes : List Nat) (hashFn : HashFn)
    (hcnt : ∀ p ∈ f.positions bytes hashFn,
      (f.positions bytes hashFn).count p ≤
        getSlot f.bits_per_counter (f.counter_bins.getD p.1 0) p.2) :
    (f.remove bytes hashFn).1 = true := by
  obtain ⟨hbpc, hcb, hmax, hnh, hlen, hwords⟩ := hwf
  have hrem := remove_eq_removeSpec f bytes hashFn hlen
  have hmatch := removeSpec_eq_decRun_match f bytes hashFn hmax
  obtain ⟨work2, hrun, -⟩ := decRun_spec hcb (f.positions bytes hashFn)
    f.counter_bins
    (positions_ok f ⟨hbpc, hcb, hmax, hnh, hlen, hwords⟩ bytes hashFn)
    hwords hcnt
  rw [hrun] at hmatch
  rw [hrem, hmatch]

theorem cbf_eq_of_fields {f g : CountingBloomFilter}
    (h1 : f.counter_bins = g.counter_bins) (h2 : f.counter_max = g.counter_max)
    (h3 : f.counters_per_bin = g.counters_per_bin)
    (h4 : f.bits_per_counter = g.bits_per_counter)
    (h5 : f.n_hashes = g.n_hashes) : f = g := by
  cases f
  cases g
  simp_all

theorem positions_congr {f g : CountingBloomFilter} (bytes : List Nat)
    (hashFn : HashFn) (h1 : g.counter_bins.length = f.counter_bins.length)
    (h2 : g.counters_per_bin = f.counters_per_bin)
    (h3 : g.n_hashes = f.n_hashes) :
    g.positions bytes hashFn = f.positions bytes hashFn := by
  unfold CountingBloomFilter.positions hashPos
  rw [h1, h2, h3]

/-- Well-formedness is preserved by add. -/
theorem wf_add (f : CountingBloomFilter) (hwf : f.wf) (bytes : List Nat)
    (hashFn : HashFn) : (f.add bytes hashFn).2.wf := by
  cases hb : (f.add bytes hashFn).1 with
  | false =>
    rw [add_false_unchanged f bytes hashFn hb]
    exact hwf
  | true =>
    obtain ⟨h1, h2, h3, h4, h5, h6, -⟩ := add_true_spec f hwf bytes hashFn hb
    obtain ⟨hbpc, hcb, hmax, hnh, hlen, hwords⟩ := hwf
    exact ⟨by omega, by rw [h2, h3]; exact hcb, by rw [h1, h3]; exact hmax,
      by omega, by omega, h6⟩

/-- Well-formedness is preserved by remove. -/
theorem wf_remove (f : CountingBloomFilter) (hwf : f.wf) (bytes : List Nat)
    (hashFn : HashFn) : (f.remove bytes hashFn).2.wf := by
  cases hb : (f.remove bytes hashFn).1 with
  | false =>
    rw [remove_false_unchanged f bytes hashFn hb]
    exact hwf
  | true =>
    obtain ⟨h1, h2, h3, h4, h5, h6, -⟩ := remove_true_spec f hwf bytes hashFn hb
    obtain ⟨hbpc, hcb, hmax, hnh, hlen, hwords⟩ := hwf
    exact ⟨by omega, by rw [h2, h3]; exact hcb, by rw [h1, h3]; exact hmax,
      by omega, by omega, h6⟩

theorem wf_reachable {hashFn : HashFn} {f : CountingBloomFilter}
    (h : ReachableCBF hashFn f) : f.wf := by
  induction h with
  | init nc nh bits f h => exact wf_of_construction h
  | add f bytes h ih => exact wf_add f ih bytes hashFn
  | remove f bytes h ih => exact wf_remove f ih bytes hashFn

/-- C5: in every reachable counting bloom filter state every packed counter
value lies in [0, counter_max] (the Nat model makes the lower bound
intrinsic), and the transitions never wrap: add never decreases any packed
counter and never pushes one above counter_max, remove never increases
one. -/
theorem C5_counters_bounded_no_wrap (hashFn : HashFn) (f : CountingBloomFilter)
    (h : ReachableCBF hashFn f) :
    (∀ b s, getSlot f.bits_per_counter (f.counter_bins.getD b 0) s ≤ f.counter_max) ∧
    (∀ bytes b s,
      getSlot f.bits_per_counter (f.counter_bins.getD b 0) s ≤
        getSlot f.bits_per_counter ((f.add bytes hashFn).2.counter_bins.getD b 0) s ∧
      getSlot f.bits_per_counter ((f.add bytes hashFn).2.counter_bins.getD b 0) s ≤
        f.counter_max ∧
      getSlot f.bits_per_counter ((f.remove bytes hashFn).2.counter_bins.getD b 0) s ≤
        getSlot f.bits_per_counter (f.counter_bins.getD b 0) s) := by
  have hwf := wf_reachable h
  have hmax : f.counter_max = 2 ^ f.bits_per_counter - 1 := hwf.2.2.1
  constructor
  · intro b s
    rw [hmax]
    exact getSlot_le _ _ _
  · intro bytes b s
    refine ⟨?_, by rw [hmax]; exact getSlot_le _ _ _, ?_⟩
    · cases hb : (f.add bytes hashFn).1 with
      | false => rw [add_false_unchanged f bytes hashFn hb]
      | true =>
        obtain ⟨-, -, -, -, -, -, hs⟩ := add_true_spec f hwf bytes hashFn hb
        rw [hs b s]
        omega
    · cases hb : (f.remove bytes hashFn).1 with
      | false => rw [remove_false_unchanged f bytes hashFn hb]
      | true =>
        obtain ⟨-, -, -, -, -, -, hs⟩ := remove_true_spec f hwf bytes hashFn hb
        have := hs b s
        omega

/-- C5 witness: the invariant evaluated on a concretely constructed
filter. -/
theorem C5_witness :
    (∀ b s, getSlot cbf934.bits_per_counter (cbf934.counter_bins.getD b 0) s ≤
      cbf934.counter_max) ∧
    (∀ bytes b s,
      getSlot cbf934.bits_per_counter (cbf934.counter_bins.getD b 0) s ≤
        getSlot cbf934.bits_per_counter
          ((cbf934.add bytes hfnSeed).2.counter_bins.getD b 0) s ∧
      getSlot cbf934.bits_per_counter
          ((cbf934.add bytes hfnSeed).2.counter_bins.getD b 0) s ≤
        cbf934.counter_max ∧
      getSlot cbf934.bits_per_counter
          ((cbf934.remove bytes hfnSeed).2.counter_bins.getD b 0) s ≤
        getSlot cbf934.bits_per_counter (cbf934.counter_bins.getD b 0) s) :=
  C5_counters_bounded_no_wrap hfnSeed cbf934
    (ReachableCBF.init 9 3 4 cbf934 (by rfl))

theorem readCounter_eq_getSlot (f : CountingBloomFilter)
    (hmax : f.counter_max = 2 ^ f.bits_per_counter - 1) (hash : Nat) :
    f.readCounter hash = getSlot f.bits_per_counter
      (f.counter_bins.getD (hash % f.counter_bins.length) 0)
      (hash % f.counters_per_bin) := by
  unfold CountingBloomFilter.readCounter CountingBloomFilter.offsets
  rw [hmax, mask_read_eq_getSlot]

theorem contains_iff_positions (f : CountingBloomFilter)
    (hmax : f.counter_max = 2 ^ f.bits_per_counter - 1) (bytes : List Nat)
    (hashFn : HashFn) :
    f.contains bytes hashFn = true ↔
      ∀ p ∈ f.positions bytes hashFn,
        0 < getSlot f.bits_per_counter (f.counter_bins.getD p.1 0) p.2 := by
  unfold CountingBloomFilter.contains CountingBloomFilter.positions
  rw [List.all_eq_true]
  constructor
  · intro h p hp
    obtain ⟨seed, hseed, hps⟩ := List.mem_map.mp hp
    subst hps
    have hx := h seed hseed
    rw [decide_eq_true_iff, readCounter_eq_getSlot f hmax] at hx
    exact hx
  · intro h seed hseed
    rw [decide_eq_true_iff, readCounter_eq_getSlot f hmax]
    exact h (hashPos f (hashFn seed bytes))
      (List.mem_map.mpr ⟨seed, hseed, rfl⟩)

theorem reachable_of_eq {hashFn : HashFn} {f g : CountingBloomFilter}
    (h : ReachableCBF hashFn f) (he : f = g) : ReachableCBF hashFn g := he ▸ h

theorem cbfC6_reachable : ReachableCBF hfnC6 cbfC6 := by
  have h0 : ReachableCBF hfnC6
      { counter_bins := [0], counter_max := 15, counters_per_bin := 16,
        bits_per_counter := 4, n_hashes := 2 } :=
    ReachableCBF.init 9 2 4 _ (by rfl)
  have h1 := ReachableCBF.add _ [1] h0
  have h2 := ReachableCBF.add _ [1] h1
  have h3 := ReachableCBF.add _ [1] h2
  have h4 := ReachableCBF.add _ [1] h3
  have h5 := ReachableCBF.add _ [1] h4
  have h6 := ReachableCBF.add _ [1] h5
  have h7 := ReachableCBF.add _ [1] h6
  have h8 := ReachableCBF.add _ [1] h7
  have h9 := ReachableCBF.add _ [1] h8
  have h10 := ReachableCBF.add _ [1] h9
  have h11 := ReachableCBF.add _ [1] h10
  have h12 := ReachableCBF.add _ [1] h11
  have h13 := ReachableCBF.add _ [1] h12
  have h14 := ReachableCBF.add _ [1] h13
  have h15 := ReachableCBF.add _ [1] h14
  exact reachable_of_eq h15 (by decide)

/-- C6 counterexample: a reachable filter state (two of the key's counter
positions saturated by an aliasing key, the other still zero) on which
add([0]) returns false and the immediately following contains([0]) is
false, refuting the claim that contains holds regardless of the add
result. -/
theorem C6_counterexample :
    ReachableCBF hfnC6 cbfC6 ∧
    (cbfC6.add [0] hfnC6).1 = false ∧
    (cbfC6.add [0] hfnC6).2.contains [0] hfnC6 = false :=
  ⟨cbfC6_reachable, by decide, by decide⟩

/-- C6 amended: whenever add returns true, an immediately following
contains of the same key returns true. -/
theorem C6_add_true_then_contains (f : CountingBloomFilter) (hwf : f.wf)
    (bytes : List Nat) (hashFn : HashFn)
    (h : (f.add bytes hashFn).1 = true) :
    (f.add bytes hashFn).2.contains bytes hashFn = true := by
  obtain ⟨h1, h2, h3, h4, h5, h6, hs⟩ := add_true_spec f hwf bytes hashFn h
  have hwf2 := wf_add f hwf bytes hashFn
  have hmax2 : (f.add bytes hashFn).2.counter_max =
      2 ^ (f.add bytes hashFn).2.bits_per_counter - 1 := hwf2.2.2.1
  rw [contains_iff_positions _ hmax2]
  rw [positions_congr bytes hashFn h5 h2 h4]
  intro p hp
  rw [h3, hs p.1 p.2]
  have : 0 < (f.positions bytes hashFn).count p := List.count_pos_iff.mpr hp
  have hcp : (f.positions bytes hashFn).count (p.1, p.2) =
      (f.positions bytes hashFn).count p := by
    rw [Prod.mk.eta]
  omega

theorem cbf934_wf : cbf934.wf :=
  ⟨by decide, by decide, by decide, by decide, by decide, by decide⟩

/-- C6 witness: the amended theorem evaluated on a concretely constructed
filter where add succeeds. -/
theorem C6_witness :
    cbf934.wf ∧ (cbf934.add [0] hfnSeed).1 = true ∧
    (cbf934.add [0] hfnSeed).2.contains [0] hfnSeed = true :=
  ⟨cbf934_wf, by decide,
    C6_add_true_then_contains cbf934 cbf934_wf [0] hfnSeed (by decide)⟩

/-- C7: after a successful add of a key, removing the same key succeeds
and restores the filter exactly to its pre-add state (so in particular the
sum of all counters is unchanged by the add/remove cycle). -/
theorem C7_remove_inverts_add (f : CountingBloomFilter) (hwf : f.wf)
    (bytes : List Nat) (hashFn : HashFn) (h : (f.add bytes hashFn).1 = true) :
    (f.add bytes hashFn).2.remove bytes hashFn = (true, f) := by
  obtain ⟨h1, h2, h3, h4, h5, h6, hs⟩ := add_true_spec f hwf bytes hashFn h
  have hwf2 := wf_add f hwf bytes hashFn
  set g := (f.add bytes hashFn).2 with hg
  have hposg : g.positions bytes hashFn = f.positions bytes hashFn :=
    positions_congr bytes hashFn h5 h2 h4
  have hrt : (g.remove bytes hashFn).1 = true := by
    apply remove_succeeds_of_counts g hwf2
    rw [hposg, h3]
    intro p hp
    rw [hs p.1 p.2, Prod.mk.eta]
    omega
  obtain ⟨r1, r2, r3, r4, r5, r6, rs⟩ := remove_true_spec g hwf2 bytes hashFn hrt
  obtain ⟨hbpc, hcb, hmax, hnh, hlen, hwords⟩ := hwf
  have hbins : (g.remove bytes hashFn).2.counter_bins = f.counter_bins := by
    apply bins_ext hbpc hcb
    · omega
    · exact r6
    · exact hwords
    · intro b s
      have e1 := rs b s
      rw [hposg, h3] at e1
      have e2 := hs b s
      omega
  have hsnd : (g.remove bytes hashFn).2 = f :=
    cbf_eq_of_fields hbins (by omega) (by omega) (by omega) (by omega)
  have hpair : g.remove bytes hashFn =
      ((g.remove bytes hashFn).1, (g.remove bytes hashFn).2) := rfl
  rw [hpair, hrt, hsnd]

/-- C7 witness: a concrete successful add/remove cycle. -/
theorem C7_witness :
    cbf934.wf ∧ (cbf934.add [0] hfnSeed).1 = true ∧
    (cbf934.add [0] hfnSeed).2.remove [0] hfnSeed = (true, cbf934) :=
  ⟨cbf934_wf, by decide,
    C7_remove_inverts_add cbf934 cbf934_wf [0] hfnSeed (by decide)⟩

theorem count_eq_one_of_mem_nodup {l : List (Nat × Nat)} {a : Nat × Nat}
    (d : l.Nodup) (h : a ∈ l) : l.count a = 1 := by
  induction l with
  | nil => cases h
  | cons x t ih =>
    rw [List.count_cons]
    rcases List.mem_cons.mp h with h1 | h1
    · subst h1
      rw [List.count_eq_zero.mpr (List.nodup_cons.mp d).1]
      simp
    · have hne : x ≠ a := by
        intro hx
        subst hx
        exact (List.nodup_cons.mp d).1 h1
      rw [ih (List.nodup_cons.mp d).2 h1]
      have hbeq : (x == a) = false := beq_eq_false_iff_ne.mpr hne
      rw [hbeq]
      simp

theorem readCounter_le_max (f : CountingBloomFilter) (hash : Nat) :
    f.readCounter hash ≤ f.counter_max := by
  unfold CountingBloomFilter.readCounter CountingBloomFilter.offsets
  rw [mask_read_eq]
  exact Nat.and_le_right

theorem min?_map_mono (g : Nat → Nat) (hg : ∀ a b, a ≤ b → g a ≤ g b)
    (l : List Nat) : (l.map g).min? = l.min?.map g := by
  cases hm : l.min? with
  | none =>
    rw [List.min?_eq_none_iff] at hm
    subst hm
    rfl
  | some a =>
    rw [List.min?_eq_some_iff (fun x => Nat.le_refl x) (fun x y => by omega)
      (fun x y z => by omega)] at hm
    rw [show Option.map g (some a) = some (g a) from rfl]
    rw [List.min?_eq_some_iff (fun x => Nat.le_refl x) (fun x y => by omega)
      (fun x y z => by omega)]
    refine ⟨List.mem_map.mpr ⟨a, hm.1, rfl⟩, ?_⟩
    intro b hb
    obtain ⟨c, hc, hcb⟩ := List.mem_map.mp hb
    subst hcb
    exact hg a c (hm.2 c hc)

theorem estimate_eq_min_readings (f : CountingBloomFilter) (bytes : List Nat)
    (hashFn : HashFn) :
    f.estimate bytes hashFn = ((f.readings bytes hashFn).min?).getD 0 := rfl

theorem readings_after_add (f : CountingBloomFilter) (hwf : f.wf)
    (bytes : List Nat) (hashFn : HashFn)
    (hnodup : (f.positions bytes hashFn).Nodup)
    (h : (f.add bytes hashFn).1 = true) :
    (f.add bytes hashFn).2.readings bytes hashFn =
      (f.readings bytes hashFn).map fun x => x + 1 := by
  obtain ⟨h1, h2, h3, h4, h5, h6, hs⟩ := add_true_spec f hwf bytes hashFn h
  have hwf2 := wf_add f hwf bytes hashFn
  have hmaxf : f.counter_max = 2 ^ f.bits_per_counter - 1 := hwf.2.2.1
  have hmax2 : (f.add bytes hashFn).2.counter_max =
      2 ^ (f.add bytes hashFn).2.bits_per_counter - 1 := hwf2.2.2.1
  unfold CountingBloomFilter.readings
  rw [h4, List.map_map]
  apply List.map_congr_left
  intro seed hseed
  show (f.add bytes hashFn).2.readCounter (hashFn seed bytes) =
    f.readCounter (hashFn seed bytes) + 1
  rw [readCounter_eq_getSlot _ hmax2, readCounter_eq_getSlot _ hmaxf, h3, h5, h2]
  rw [hs]
  have hmem : hashPos f (hashFn seed bytes) ∈ f.positions bytes hashFn :=
    List.mem_map.mpr ⟨seed, hseed, rfl⟩
  have hcnt : (f.positions bytes hashFn).count (hashPos f (hashFn seed bytes)) = 1 :=
    count_eq_one_of_mem_nodup hnodup hmem
  unfold hashPos at hcnt
  rw [hcnt]

theorem readings_after_remove (f : CountingBloomFilter) (hwf : f.wf)
    (bytes : List Nat) (hashFn : HashFn)
    (hnodup : (f.positions bytes hashFn).Nodup)
    (h : (f.remove bytes hashFn).1 = true) :
    (f.remove bytes hashFn).2.readings bytes hashFn =
      (f.readings bytes hashFn).map fun x => x - 1 := by
  obtain ⟨h1, h2, h3, h4, h5, h6, hs⟩ := remove_true_spec f hwf bytes hashFn h
  have hwf2 := wf_remove f hwf bytes hashFn
  have hmaxf : f.counter_max = 2 ^ f.bits_per_counter - 1 := hwf.2.2.1
  have hmax2 : (f.remove bytes hashFn).2.counter_max =
      2 ^ (f.remove bytes hashFn).2.bits_per_counter - 1 := hwf2.2.2.1
  unfold CountingBloomFilter.readings
  rw [h4, List.map_map]
  apply List.map_congr_left
  intro seed hseed
  show (f.remove bytes hashFn).2.readCounter (hashFn seed bytes) =
    f.readCounter (hashFn seed bytes) - 1
  rw [readCounter_eq_getSlot _ hmax2, readCounter_eq_getSlot _ hmaxf, h3, h5, h2]
  have hmem : hashPos f (hashFn seed bytes) ∈ f.positions bytes hashFn :=
    List.mem_map.mpr ⟨seed, hseed, rfl⟩
  have hcnt : (f.positions bytes hashFn).count (hashPos f (hashFn seed bytes)) = 1 :=
    count_eq_one_of_mem_nodup hnodup hmem
  unfold hashPos at hcnt
  have heq := hs (hashFn seed bytes % f.counter_bins.length)
    (hashFn seed bytes % f.counters_per_bin)
  rw [hcnt] at heq
  omega

theorem readings_ne_nil (f : CountingBloomFilter) (hnh : 0 < f.n_hashes)
    (bytes : List Nat) (hashFn : HashFn) : f.readings bytes hashFn ≠ [] := by
  unfold CountingBloomFilter.readings
  simp only [ne_eq, List.map_eq_nil_iff, List.range_eq_nil]
  omega

/-- C8: estimate returns the minimum of the k counter readings and never
exceeds counter_max; absent aliasing (pairwise-distinct counter
positions), a successful add raises the estimate by exactly one and a
successful remove lowers it by exactly one, so the estimate tracks
successful adds minus successful removes up to the saturation cap. -/
theorem C8_estimate_min_tracking (f : CountingBloomFilter) (hwf : f.wf)
    (bytes : List Nat) (hashFn : HashFn) :
    f.estimate bytes hashFn ≤ f.counter_max ∧
    (∀ seed, seed < f.n_hashes →
      f.estimate bytes hashFn ≤ f.readCounter (hashFn seed bytes)) ∧
    (∃ seed, seed < f.n_hashes ∧
      f.estimate bytes hashFn = f.readCounter (hashFn seed bytes)) ∧
    ((f.positions bytes hashFn).Nodup → (f.add bytes hashFn).1 = true →
      (f.add bytes hashFn).2.estimate bytes hashFn =
        f.estimate bytes hashFn + 1) ∧
    ((f.positions bytes hashFn).Nodup → (f.remove bytes hashFn).1 = true →
      (f.remove bytes hashFn).2.estimate bytes hashFn =
        f.estimate bytes hashFn - 1) := by
  have hnh : 0 < f.n_hashes := hwf.2.2.2.1
  obtain ⟨a, hma, hmem, hle⟩ :
      ∃ a, (f.readings bytes hashFn).min? = some a ∧
        a ∈ f.readings bytes hashFn ∧ ∀ b ∈ f.readings bytes hashFn, a ≤ b := by
    cases hm : (f.readings bytes hashFn).min? with
    | none =>
      rw [List.min?_eq_none_iff] at hm
      exact absurd hm (readings_ne_nil f hnh bytes hashFn)
    | some a =>
      rw [List.min?_eq_some_iff (fun x => Nat.le_refl x) (fun x y => by omega)
        (fun x y z => by omega)] at hm
      exact ⟨a, rfl, hm.1, hm.2⟩
  have hest : f.estimate bytes hashFn = a := by
    rw [estimate_eq_min_readings, hma]
    rfl
  obtain ⟨seed0, hseed0, hread0⟩ :
      ∃ seed, seed < f.n_hashes ∧ a = f.readCounter (hashFn seed bytes) := by
    obtain ⟨seed, hs1, hs2⟩ := List.mem_map.mp hmem
    exact ⟨seed, List.mem_range.mp hs1, hs2.symm⟩
  refine ⟨?_, ?_, ?_, ?_, ?_⟩
  · rw [hest, hread0]
    exact readCounter_le_max f _
  · intro seed hseed
    rw [hest]
    exact hle _ (List.mem_map.mpr ⟨seed, List.mem_range.mpr hseed, rfl⟩)
  · exact ⟨seed0, hseed0, by rw [hest, hread0]⟩
  · intro hnodup hadd
    rw [estimate_eq_min_readings, estimate_eq_min_readings,
      readings_after_add f hwf bytes hashFn hnodup hadd,
      min?_map_mono (fun x => x + 1) (fun x y hxy => by show x + 1 ≤ y + 1; omega) _, hma]
    rfl
  · intro hnodup hrem
    rw [estimate_eq_min_readings, estimate_eq_min_readings,
      readings_after_remove f hwf bytes hashFn hnodup hrem,
      min?_map_mono (fun x => x - 1) (fun x y hxy => by show x - 1 ≤ y - 1; omega) _, hma]
    rfl

/-- C8 witness: the estimate theorem evaluated on a concrete filter,
including exercising the add step with its distinct-position hypothesis. -/
theorem C8_witness :
    cbf934.wf ∧
    (cbf934.add [0] hfnSeed).2.estimate [0] hfnSeed =
      cbf934.estimate [0] hfnSeed + 1 :=
  ⟨cbf934_wf, (C8_estimate_min_tracking cbf934 cbf934_wf [0] hfnSeed).2.2.2.1
    (by decide) (by decide)⟩

theorem count_set_eq (l : List Nat) (i v y : Nat) (h : i < l.length) :
    (l.set i v).count y + (if l.getD i 0 = y then 1 else 0) =
      l.count y + (if v = y then 1 else 0) := by
  induction l generalizing i with
  | nil => simp at h
  | cons x t ih =>
    cases i with
    | zero =>
      simp only [List.set_cons_zero, List.count_cons, List.getD_cons_zero,
        beq_iff_eq]
      split_ifs <;> omega
    | succ i =>
      simp only [List.set_cons_succ, List.count_cons, List.getD_cons_succ,
        beq_iff_eq]
      have hih := ih i (by simpa using h)
      split_ifs at hih ⊢ <;> omega

theorem count_take_last (l : List Nat) (h : l ≠ []) (y : Nat) :
    (l.take (l.length - 1)).count y +
      (if l.getD (l.length - 1) 0 = y then 1 else 0) = l.count y := by
  conv_rhs => rw [← List.dropLast_concat_getLast h]
  rw [List.dropLast_eq_take, List.count_append]
  have hlt : l.length - 1 < l.length := by
    have := List.length_pos.mpr h
    omega
  have hgd : l.getD (l.length - 1) 0 = l.getLast h := by
    rw [List.getLast_eq_getElem, List.getD_eq_getElem?_getD,
      List.getElem?_eq_getElem hlt]
    rfl
  rw [hgd]
  have hsingle : ([l.getLast h] : List Nat).count y =
      if l.getLast h = y then 1 else 0 := by
    simp [List.count_cons, beq_iff_eq]
  rw [hsingle]

theorem swapRemove_eq (l : List Nat) (i : Nat) :
    swapRemove l i = (l.take (l.length - 1)).set i (l.getD (l.length - 1) 0) := by
  unfold swapRemove
  rw [List.dropLast_eq_take, List.length_set, List.set_take]

theorem swapRemove_length (l : List Nat) (i : Nat) (_h : i < l.length) :
    (swapRemove l i).length = l.length - 1 := by
  rw [swapRemove_eq l i, List.length_set, List.length_take]
  omega

theorem swapRemove_count (l : List Nat) (i y : Nat) (h : i < l.length) :
    (swapRemove l i).count y + (if l.getD i 0 = y then 1 else 0) = l.count y := by
  rw [swapRemove_eq l i]
  have hne : l ≠ [] := by
    intro hx
    subst hx
    simp at h
  by_cases hi : i < l.length - 1
  · have hset := count_set_eq (l.take (l.length - 1)) i (l.getD (l.length - 1) 0) y
      (by rw [List.length_take]; omega)
    have htake := count_take_last l hne y
    have hgd : (l.take (l.length - 1)).getD i 0 = l.getD i 0 := by
      rw [List.getD_eq_getElem?_getD, List.getD_eq_getElem?_getD,
        List.getElem?_take_of_lt hi]
    rw [hgd] at hset
    split_ifs at hset htake ⊢ <;> omega
  · have hieq : i = l.length - 1 := by omega
    subst hieq
    rw [List.set_eq_of_length_le (by rw [List.length_take]; omega)]
    exact count_take_last l hne y

theorem summap_set (g : List Nat → Nat) (l : List (List Nat)) (i : Nat)
    (b : List Nat) (h : i < l.length) :
    ((l.set i b).map g).sum + g (l.getD i []) = (l.map g).sum + g b := by
  induction l generalizing i with
  | nil => simp at h
  | cons x t ih =>
    cases i with
    | zero =>
      simp only [List.set_cons_zero, List.map_cons, List.sum_cons,
        List.getD_cons_zero]
      omega
    | succ i =>
      simp only [List.set_cons_succ, List.map_cons, List.sum_cons,
        List.getD_cons_succ]
      have hih := ih i (by simpa using h)
      omega

theorem cuckoo_getD_set_self {l : List (List Nat)} {i : Nat} {a : List Nat}
    (h : i < l.length) : (l.set i a).getD i [] = a := by
  simp [List.getD_eq_getElem?_getD, List.getElem?_set_self h]

theorem cuckoo_getD_set_other {l : List (List Nat)} {i j : Nat} {a : List Nat}
    (h : i ≠ j) : (l.set i a).getD j [] = l.getD j [] := by
  simp [List.getD_eq_getElem?_getD, List.getElem?_set_ne h]

/-- C9: remove searches the primary bin first and then the alternate bin,
removes exactly one occurrence of the key's fingerprint (total occupancy
and the fingerprint's own count drop by one, all other fingerprint counts
unchanged) and returns true exactly when the fingerprint is present in one
of the two candidate bins; if absent from both it returns false with no
mutation.  The bin-count-positive hypothesis reflects that remove on a
zero-bin filter panics. -/
theorem C9_cuckoo_remove_one_occurrence (c : CuckooFilter) (bytes : List Nat)
    (hashT fpFn : List Nat → Nat) (hlen : 0 < c.bins.length) :
    ∃ r, c.remove bytes hashT fpFn = some r ∧
      ((r.1 = true) ↔
        (fpFn bytes % 256) ∈ c.bins.getD (hashT bytes % c.bins.length) [] ∨
        (fpFn bytes % 256) ∈ c.bins.getD
          (((hashT bytes % c.bins.length) ^^^ hashT [fpFn bytes % 256]) %
            c.bins.length) []) ∧
      (r.1 = true → r.2.occupancy + 1 = c.occupancy ∧
        r.2.countFp (fpFn bytes % 256) + 1 = c.countFp (fpFn bytes % 256) ∧
        ∀ g, g ≠ fpFn bytes % 256 → r.2.countFp g = c.countFp g) ∧
      (r.1 = true →
        (fpFn bytes % 256) ∈ c.bins.getD (hashT bytes % c.bins.length) [] →
        ∀ j, j ≠ hashT bytes % c.bins.length →
          r.2.bins.getD j [] = c.bins.getD j []) ∧
      (r.1 = false → r.2 = c) := by
  have hi1 : hashT bytes % c.bins.length < c.bins.length := Nat.mod_lt _ hlen
  have hi2 : ((hashT bytes % c.bins.length) ^^^ hashT [fpFn bytes % 256]) %
      c.bins.length < c.bins.length := Nat.mod_lt _ hlen
  unfold CuckooFilter.remove
  rw [if_neg (by omega)]
  cases hf1 : (c.bins.getD (hashT bytes % c.bins.length) []).findIdx?
      (fun v => v = fpFn bytes % 256) with
  | some rmi =>
    simp only [hf1]
    obtain ⟨hrlt, hrp, -⟩ := List.findIdx?_eq_some_iff_getElem.mp hf1
    have hval : (c.bins.getD (hashT bytes % c.bins.length) []).getD rmi 0 =
        fpFn bytes % 256 := by
      rw [List.getD_eq_getElem?_getD, List.getElem?_eq_getElem hrlt]
      simpa using hrp
    have hmem : (fpFn bytes % 256) ∈
        c.bins.getD (hashT bytes % c.bins.length) [] := by
      have hx := getD_mem_of_lt hrlt
      rwa [hval] at hx
    refine ⟨_, rfl, ?_, ?_, ?_, ?_⟩
    · exact ⟨fun _ => Or.inl hmem, fun _ => rfl⟩
    · intro _
      refine ⟨?_, ?_, ?_⟩
      · show ((c.bins.set _ _).map List.length).sum + 1 = (c.bins.map List.length).sum
        have hsum := summap_set List.length c.bins _
          (swapRemove (c.bins.getD (hashT bytes % c.bins.length) []) rmi) hi1
        rw [swapRemove_length _ _ hrlt] at hsum
        omega
      · show ((c.bins.set _ _).map fun b => b.count (fpFn bytes % 256)).sum + 1 =
          (c.bins.map fun b => b.count (fpFn bytes % 256)).sum
        have hsum := summap_set (fun b => b.count (fpFn bytes % 256)) c.bins _
          (swapRemove (c.bins.getD (hashT bytes % c.bins.length) []) rmi) hi1
        have hcnt := swapRemove_count (c.bins.getD (hashT bytes % c.bins.length) [])
          rmi (fpFn bytes % 256) hrlt
        rw [hval] at hcnt
        rw [if_pos rfl] at hcnt
        simp only at hsum
        omega
      · intro g hg
        show ((c.bins.set _ _).map fun b => b.count g).sum =
          (c.bins.map fun b => b.count g).sum
        have hsum := summap_set (fun b => b.count g) c.bins _
          (swapRemove (c.bins.getD (hashT bytes % c.bins.length) []) rmi) hi1
        have hcnt := swapRemove_count (c.bins.getD (hashT bytes % c.bins.length) [])
          rmi g hrlt
        rw [hval] at hcnt
        rw [if_neg (fun hx => hg hx.symm)] at hcnt
        simp only at hsum
        omega
    · intro _ _ j hj
      exact cuckoo_getD_set_other (fun hx => hj hx.symm)
    · intro hfalse
      exact Bool.noConfusion hfalse
  | none =>
    simp only [hf1]
    have hn1 : (fpFn bytes % 256) ∉
        c.bins.getD (hashT bytes % c.bins.length) [] := by
      intro hmem
      have := List.findIdx?_eq_none_iff.mp hf1 _ hmem
      simp at this
    cases hf2 : (c.bins.getD (((hashT bytes % c.bins.length) ^^^
        hashT [fpFn bytes % 256]) % c.bins.length) []).findIdx?
        (fun v => v = fpFn bytes % 256) with
    | some rmi =>
      simp only [hf2]
      obtain ⟨hrlt, hrp, -⟩ := List.findIdx?_eq_some_iff_getElem.mp hf2
      have hval : (c.bins.getD (((hashT bytes % c.bins.length) ^^^
          hashT [fpFn bytes % 256]) % c.bins.length) []).getD rmi 0 =
          fpFn bytes % 256 := by
        rw [List.getD_eq_getElem?_getD, List.getElem?_eq_getElem hrlt]
        simpa using hrp
      have hmem : (fpFn bytes % 256) ∈ c.bins.getD (((hashT bytes %
          c.bins.length) ^^^ hashT [fpFn bytes % 256]) % c.bins.length) [] := by
        have hx := getD_mem_of_lt hrlt
        rwa [hval] at hx
      refine ⟨_, rfl, ?_, ?_, ?_, ?_⟩
      · exact ⟨fun _ => Or.inr hmem, fun _ => rfl⟩
      · intro _
        refine ⟨?_, ?_, ?_⟩
        · show ((c.bins.set _ _).map List.length).sum + 1 =
            (c.bins.map List.length).sum
          have hsum := summap_set List.length c.bins _
            (swapRemove (c.bins.getD (((hashT bytes % c.bins.length) ^^^
              hashT [fpFn bytes % 256]) % c.bins.length) []) rmi) hi2
          rw [swapRemove_length _ _ hrlt] at hsum
          omega
        · show ((c.bins.set _ _).map fun b => b.count (fpFn bytes % 256)).sum + 1 =
            (c.bins.map fun b => b.count (fpFn bytes % 256)).sum
          have hsum := summap_set (fun b => b.count (fpFn bytes % 256)) c.bins _
            (swapRemove (c.bins.getD (((hashT bytes % c.bins.length) ^^^
              hashT [fpFn bytes % 256]) % c.bins.length) []) rmi) hi2
          have hcnt := swapRemove_count (c.bins.getD (((hashT bytes %
            c.bins.length) ^^^ hashT [fpFn bytes % 256]) % c.bins.length) [])
            rmi (fpFn bytes % 256) hrlt
          rw [hval] at hcnt
          rw [if_pos rfl] at hcnt
          simp only at hsum
          omega
        · intro g hg
          show ((c.bins.set _ _).map fun b => b.count g).sum =
            (c.bins.map fun b => b.count g).sum
          have hsum := summap_set (fun b => b.count g) c.bins _
            (swapRemove (c.bins.getD (((hashT bytes % c.bins.length) ^^^
              hashT [fpFn bytes % 256]) % c.bins.length) []) rmi) hi2
          have hcnt := swapRemove_count (c.bins.getD (((hashT bytes %
            c.bins.length) ^^^ hashT [fpFn bytes % 256]) % c.bins.length) [])
            rmi g hrlt
          rw [hval] at hcnt
          rw [if_neg (fun hx => hg hx.symm)] at hcnt
          simp only at hsum
          omega
      · intro _ hmem1
        exact absurd hmem1 hn1
      · intro hfalse
        exact Bool.noConfusion hfalse
    | none =>
      simp only [hf2]
      have hn2 : (fpFn bytes % 256) ∉ c.bins.getD (((hashT bytes %
          c.bins.length) ^^^ hashT [fpFn bytes % 256]) % c.bins.length) [] := by
        intro hmem
        have := List.findIdx?_eq_none_iff.mp hf2 _ hmem
        simp at this
      refine ⟨_, rfl, ?_, ?_, ?_, ?_⟩
      · constructor
        · intro hx
          exact Bool.noConfusion hx
        · intro hx
          rcases hx with hx | hx
          · exact absurd hx hn1
          · exact absurd hx hn2
      · intro hx
        exact Bool.noConfusion hx
      · intro hx
        exact Bool.noConfusion hx
      · intro _
        rfl

/-- C9 witness: the remove theorem evaluated on a concrete filter whose
primary bin holds the fingerprint. -/
theorem C9_witness :
    0 < cuckooW.bins.length ∧
    (∃ r, cuckooW.remove [0] hashTW fpFnW = some r ∧
      ((r.1 = true) ↔
        (fpFnW [0] % 256) ∈ cuckooW.bins.getD (hashTW [0] % cuckooW.bins.length) [] ∨
        (fpFnW [0] % 256) ∈ cuckooW.bins.getD
          (((hashTW [0] % cuckooW.bins.length) ^^^ hashTW [fpFnW [0] % 256]) %
            cuckooW.bins.length) []) ∧
      (r.1 = true → r.2.occupancy + 1 = cuckooW.occupancy ∧
        r.2.countFp (fpFnW [0] % 256) + 1 = cuckooW.countFp (fpFnW [0] % 256) ∧
        ∀ g, g ≠ fpFnW [0] % 256 → r.2.countFp g = cuckooW.countFp g) ∧
      (r.1 = true →
        (fpFnW [0] % 256) ∈ cuckooW.bins.getD (hashTW [0] % cuckooW.bins.length) [] →
        ∀ j, j ≠ hashTW [0] % cuckooW.bins.length →
          r.2.bins.getD j [] = cuckooW.bins.getD j []) ∧
      (r.1 = false → r.2 = cuckooW)) :=
  ⟨by decide, C9_cuckoo_remove_one_occurrence cuckooW [0] hashTW fpFnW (by decide)⟩

theorem cuckooAddGo_total (hashT : List Nat → Nat) (epb : Nat) (rng : Nat → Nat)
    (hepb : 0 < epb) :
    ∀ (fuel : Nat) (bins : List (List Nat)) (fp i attempt : Nat),
      (cuckooAddGo hashT epb rng bins fp i attempt fuel).isSome := by
  intro fuel
  induction fuel with
  | zero =>
    intro bins fp i attempt
    rfl
  | succ fuel ih =>
    intro bins fp i attempt
    unfold cuckooAddGo
    by_cases hfree : (bins.getD i []).length < epb
    · rw [if_pos hfree]
      rfl
    · rw [if_neg hfree]
      by_cases ha : attempt = 0
      · rw [if_pos ha]
        exact ih _ _ _ _
      · rw [if_neg ha, if_neg (by omega)]
        exact ih _ _ _ _

/-- C10: CuckooFilter::new(0) constructs successfully with zero bins, but
add, remove and contains on it all panic (hash % 0), while on any filter
with a positive bin count (and positive bin capacity for add) the three
operations are total. -/
theorem C10_zero_bins_not_total (bytes : List Nat)
    (hashT fpFn : List Nat → Nat) (rng : Nat → Nat) :
    (CuckooFilter.new 0).bins.length = 0 ∧
    (CuckooFilter.new 0).add bytes hashT fpFn rng = none ∧
    (CuckooFilter.new 0).remove bytes hashT fpFn = none ∧
    (CuckooFilter.new 0).contains bytes hashT fpFn = none ∧
    (∀ c : CuckooFilter, 0 < c.bins.length →
      ((0 < c.entries_per_bin → (c.add bytes hashT fpFn rng).isSome) ∧
       (c.remove bytes hashT fpFn).isSome ∧
       (c.contains bytes hashT fpFn).isSome)) := by
  refine ⟨rfl, rfl, rfl, rfl, ?_⟩
  intro c hlen
  refine ⟨?_, ?_, ?_⟩
  · intro hepb
    unfold CuckooFilter.add
    rw [if_neg (by omega)]
    show (Option.map (fun r => (r.1, { c with bins := r.2 }))
      (cuckooAddGo hashT c.entries_per_bin rng c.bins (fpFn bytes % 256)
        (hashT bytes % c.bins.length) 0 c.max_kicks)).isSome = true
    cases hr : cuckooAddGo hashT c.entries_per_bin rng c.bins (fpFn bytes % 256)
        (hashT bytes % c.bins.length) 0 c.max_kicks with
    | none =>
      have ht := cuckooAddGo_total hashT c.entries_per_bin rng hepb c.max_kicks
        c.bins (fpFn bytes % 256) (hashT bytes % c.bins.length) 0
      rw [hr] at ht
      exact absurd ht (by simp)
    | some r => rfl
  · unfold CuckooFilter.remove
    rw [if_neg (by omega)]
    cases hf1 : (c.bins.getD (hashT bytes % c.bins.length) []).findIdx?
        (fun v => v = fpFn bytes % 256) with
    | some rmi =>
      simp only [hf1]
      rfl
    | none =>
      cases hf2 : (c.bins.getD (((hashT bytes % c.bins.length) ^^^
          hashT [fpFn bytes % 256]) % c.bins.length) []).findIdx?
          (fun v => v = fpFn bytes % 256) with
      | some rmi =>
        simp only [hf1, hf2]
        rfl
      | none =>
        simp only [hf1, hf2]
        rfl
  · unfold CuckooFilter.contains
    rw [if_neg (by omega)]
    rfl

/-- C10 witness: zero-bin panic and positive-bin totality at concrete
inputs. -/
theorem C10_witness :
    (CuckooFilter.new 0).add [0] hashTW fpFnW (fun _ => 0) = none ∧
    (0 < (CuckooFilter.new 5).bins.length ∧
      0 < (CuckooFilter.new 5).entries_per_bin) ∧
    ((CuckooFilter.new 5).add [0] hashTW fpFnW (fun _ => 0)).isSome :=
  ⟨(C10_zero_bins_not_total [0] hashTW fpFnW (fun _ => 0)).2.1,
   ⟨by decide, by decide⟩,
   ((C10_zero_bins_not_total [0] hashTW fpFnW (fun _ => 0)).2.2.2.2
     (CuckooFilter.new 5) (by decide)).1 (by decide)⟩

/-- C4 counterexample: a full one-bin filter holding fingerprint 7.  The
failed add (max_kicks exhausted) returns false but the table now holds
fingerprint 9 instead of 7: the filter does not keep the same
fingerprints — the last evicted fingerprint is dropped and the new one was
inserted. -/
theorem C4_counterexample :
    CuckooFilter.add
        { bins := [[7]], entries_per_bin := 1, max_kicks := 2 }
        [0] hashTW fpFnC4 (fun _ => 0) =
      some (false, { bins := [[9]], entries_per_bin := 1, max_kicks := 2 }) ∧
    (7 : Nat) ∈ ([[7]] : List (List Nat)).flatten ∧
    (7 : Nat) ∉ ([[9]] : List (List Nat)).flatten := by
  refine ⟨by decide, by decide, by decide⟩

theorem cuckooAddGo_false_lengths (hashT : List Nat → Nat) (epb : Nat)
    (rng : Nat → Nat) :
    ∀ (fuel : Nat) (bins : List (List Nat)) (fp i attempt : Nat)
      (bins2 : List (List Nat)),
      cuckooAddGo hashT epb rng bins fp i attempt fuel = some (false, bins2) →
      bins2.length = bins.length ∧
      ∀ j, (bins2.getD j []).length = (bins.getD j []).length := by
  intro fuel
  induction fuel with
  | zero =>
    intro bins fp i attempt bins2 h
    simp only [cuckooAddGo, Option.some_inj, Prod.mk.injEq] at h
    rw [← h.2]
    exact ⟨rfl, fun j => rfl⟩
  | succ fuel ih =>
    intro bins fp i attempt bins2 h
    unfold cuckooAddGo at h
    by_cases hfree : (bins.getD i []).length < epb
    · rw [if_pos hfree] at h
      simp at h
    · rw [if_neg hfree] at h
      by_cases ha : attempt = 0
      · rw [if_pos ha] at h
        exact ih _ _ _ _ _ h
      · rw [if_neg ha] at h
        by_cases hz : (bins.getD i []).length = 0
        · rw [if_pos hz] at h
          exact absurd h (by simp)
        · rw [if_neg hz] at h
          have hi : i < bins.length := by
            by_contra hx
            push_neg at hx
            rw [List.getD_eq_getElem?_getD, List.getElem?_eq_none hx] at hz
            simp at hz
          obtain ⟨hl, hj⟩ := ih _ _ _ _ _ h
          have hkick : rng attempt % (bins.getD i []).length <
              (bins.getD i []).length := Nat.mod_lt _ (by omega)
          constructor
          · rw [hl, List.length_set]
          · intro j
            rw [hj j]
            by_cases hji : j = i
            · subst hji
              rw [cuckoo_getD_set_self hi, List.length_append,
                swapRemove_length _ _ hkick]
              simp only [List.length_cons, List.length_nil]
              omega
            · rw [cuckoo_getD_set_other (fun hx => hji hx.symm)]

/-- C4 amended: a failed add (max_kicks exhausted) returns false with no
rollback: the eviction swaps remain applied, every bin keeps exactly its
occupancy (hence the capacity invariant still holds) and the non-bin
fields are unchanged.  The stored fingerprints are NOT necessarily the
same multiset: the counterexample shows the last evicted fingerprint is
dropped while the new key's fingerprint was inserted. -/
theorem C4_failed_add_no_rollback (c : CuckooFilter) (bytes : List Nat)
    (hashT fpFn : List Nat → Nat) (rng : Nat → Nat) (c2 : CuckooFilter)
    (hvalid : ∀ b ∈ c.bins, b.length ≤ c.entries_per_bin)
    (h : c.add bytes hashT fpFn rng = some (false, c2)) :
    c2.entries_per_bin = c.entries_per_bin ∧
    c2.max_kicks = c.max_kicks ∧
    c2.bins.length = c.bins.length ∧
    (∀ j, (c2.bins.getD j []).length = (c.bins.getD j []).length) ∧
    (∀ b ∈ c2.bins, b.length ≤ c.entries_per_bin) := by
  unfold CuckooFilter.add at h
  by_cases hlen : c.bins.length = 0
  · rw [if_pos hlen] at h
    exact absurd h (by simp)
  · rw [if_neg hlen] at h
    simp only [] at h
    cases hr : cuckooAddGo hashT c.entries_per_bin rng c.bins (fpFn bytes % 256)
        (hashT bytes % c.bins.length) 0 c.max_kicks with
    | none =>
      rw [hr] at h
      exact absurd h (by simp)
    | some r =>
      rw [hr] at h
      simp only [Option.map_some', Option.some_inj, Prod.mk.injEq] at h
      obtain ⟨hr1, hr2⟩ := h
      have hgo : cuckooAddGo hashT c.entries_per_bin rng c.bins
          (fpFn bytes % 256) (hashT bytes % c.bins.length) 0 c.max_kicks =
          some (false, r.2) := by
        rw [hr]
        rw [show r = (r.1, r.2) from rfl, hr1]
      obtain ⟨hl, hj⟩ := cuckooAddGo_false_lengths hashT c.entries_per_bin rng
        c.max_kicks c.bins (fpFn bytes % 256) (hashT bytes % c.bins.length) 0
        r.2 hgo
      subst hr2
      refine ⟨rfl, rfl, hl, hj, ?_⟩
      intro b hb
      obtain ⟨j, hjlt, hbj⟩ := List.mem_iff_getElem.mp hb
      have hjc : j < c.bins.length := by
        simp only at hjlt
        omega
      have hgd : (r.2.getD j []).length = (c.bins.getD j []).length := hj j
      have hb1 : r.2.getD j [] = b := by
        simp only at hjlt ⊢
        rw [List.getD_eq_getElem?_getD, List.getElem?_eq_getElem hjlt]
        exact hbj
      have hc1 : c.bins.getD j [] = c.bins[j] := by
        rw [List.getD_eq_getElem?_getD, List.getElem?_eq_getElem hjc]
        rfl
      have := hvalid c.bins[j] (List.getElem_mem hjc)
      rw [hb1, hc1] at hgd
      omega

/-- C4 witness: the no-rollback theorem evaluated on the concrete failed
add. -/
theorem C4_witness :
    (∀ b ∈ ({ bins := [[7]], entries_per_bin := 1, max_kicks := 2 } :
        CuckooFilter).bins, b.length ≤ 1) ∧
    (({ bins := [[9]], entries_per_bin := 1, max_kicks := 2 } :
        CuckooFilter).entries_per_bin = 1 ∧
     ({ bins := [[9]], entries_per_bin := 1, max_kicks := 2 } :
        CuckooFilter).max_kicks = 2 ∧
     ([[9]] : List (List Nat)).length = ([[7]] : List (List Nat)).length ∧
     (∀ j, (([[9]] : List (List Nat)).getD j []).length =
       (([[7]] : List (List Nat)).getD j []).length) ∧
     (∀ b ∈ ([[9]] : List (List Nat)), b.length ≤ 1)) :=
  ⟨by decide,
   C4_failed_add_no_rollback
     { bins := [[7]], entries_per_bin := 1, max_kicks := 2 } [0] hashTW fpFnC4
     (fun _ => 0) { bins := [[9]], entries_per_bin := 1, max_kicks := 2 }
     (by decide) (by decide)⟩

/-- C2: construction behavior.  The claim that construction never panics
is false: bits_per_counter = 0 reaches `usize::BITS % 0` and panics
(modelled as none) — the concrete failing input 9, 3, 0 is evaluated in
the first conjunct.  For every nonzero bits_per_counter construction is
total and returns exactly the four typed errors in the claimed order, or
a filter with counter_max = 2^bits_per_counter - 1. -/
theorem C2_construction_errors_and_panic :
    with_bits_per_counter 9 3 0 = none ∧
    (∀ nc nh bits, with_bits_per_counter nc nh bits = none ↔ bits = 0) ∧
    (∀ nc nh bits, bits > 64 →
      with_bits_per_counter nc nh bits =
        some (Except.error (BloomError.BitsPerCounterTooLarge bits 64))) ∧
    (∀ nc nh bits, 0 < bits → bits ≤ 64 → 64 % bits ≠ 0 →
      with_bits_per_counter nc nh bits =
        some (Except.error (BloomError.BitsPerCounterUnaligned bits 64))) ∧
    (∀ nh bits, 0 < bits → bits ≤ 64 → 64 % bits = 0 →
      with_bits_per_counter 0 nh bits =
        some (Except.error (BloomError.InvalidBinCount 0))) ∧
    (∀ nc nh bits, 0 < bits → bits ≤ 64 → 64 % bits = 0 → 0 < nc →
      (nh = 0 ∨ nh > nc) →
      with_bits_per_counter nc nh bits =
        some (Except.error (BloomError.InvalidHashCount nh))) ∧
    (∀ nc nh bits, 0 < bits → bits ≤ 64 → 64 % bits = 0 → 0 < nc →
      0 < nh → nh ≤ nc →
      ∃ f, with_bits_per_counter nc nh bits = some (Except.ok f) ∧
        f.counter_max = 2 ^ bits - 1 ∧ f.bits_per_counter = bits ∧
        f.n_hashes = nh ∧ f.wf) := by
  refine ⟨rfl, ?_, ?_, ?_, ?_, ?_, ?_⟩
  · intro nc nh bits
    unfold with_bits_per_counter
    split_ifs with h1 h2 h3 h4 h5 <;> simp <;> omega
  · intro nc nh bits h
    unfold with_bits_per_counter
    rw [if_pos h]
  · intro nc nh bits h0 h64 hmod
    unfold with_bits_per_counter
    rw [if_neg (by omega), if_neg (by omega), if_pos hmod]
  · intro nh bits h0 h64 hmod
    unfold with_bits_per_counter
    rw [if_neg (by omega), if_neg (by omega), if_neg (by omega), if_pos rfl]
  · intro nc nh bits h0 h64 hmod hnc hbad
    unfold with_bits_per_counter
    rw [if_neg (by omega), if_neg (by omega), if_neg (by omega),
      if_neg (by omega), if_pos hbad]
  · intro nc nh bits h0 h64 hmod hnc hnh hle
    have heq : with_bits_per_counter nc nh bits = some (Except.ok
        { counter_bins := List.replicate ((nc + (64 / bits - 1)) / (64 / bits)) 0
          counter_max := calc_max_counter bits
          counters_per_bin := 64 / bits
          bits_per_counter := bits
          n_hashes := nh }) := by
      unfold with_bits_per_counter
      rw [if_neg (by omega), if_neg (by omega), if_neg (by omega),
        if_neg (by omega), if_neg (by omega)]
    refine ⟨_, heq, ?_, rfl, rfl, wf_of_construction heq⟩
    show calc_max_counter bits = 2 ^ bits - 1
    unfold calc_max_counter
    split_ifs with hb
    · rw [hb]
    · rfl

/-- C2 witness: the construction theorem exercised at concrete inputs
(the too-large error and a successful construction). -/
theorem C2_witness :
    with_bits_per_counter 9 3 128 =
      some (Except.error (BloomError.BitsPerCounterTooLarge 128 64)) ∧
    (∃ f, with_bits_per_counter 9 3 4 = some (Except.ok f) ∧
      f.counter_max = 2 ^ 4 - 1 ∧ f.bits_per_counter = 4 ∧
      f.n_hashes = 3 ∧ f.wf) :=
  ⟨C2_construction_errors_and_panic.2.2.1 9 3 128 (by decide),
   C2_construction_errors_and_panic.2.2.2.2.2.2 9 3 4 (by decide) (by decide)
     (by decide) (by decide) (by decide) (by decide)⟩

theorem orbitP_refl (hashT : List Nat → Nat) (L g b : Nat) :
    orbitP hashT L g b b := Or.inl rfl

theorem orbitP_lt {hashT : List Nat → Nat} {L g b q : Nat} (hb : b < L)
    (h : orbitP hashT L g b q) : q < L := by
  rcases h with h | h
  · omega
  · subst h
    exact Nat.mod_lt _ (by omega)

theorem alt_involution (hashT : List Nat → Nat) (m g b : Nat) (hb : b < 2 ^ m) :
    (((b ^^^ hashT [g]) % 2 ^ m) ^^^ hashT [g]) % 2 ^ m = b := by
  apply Nat.eq_of_testBit_eq
  intro j
  by_cases hj : j < m
  · simp [Nat.testBit_mod_two_pow, Nat.testBit_xor, hj, Bool.xor_assoc]
  · rw [Nat.testBit_mod_two_pow]
    have hbj : b.testBit j = false :=
      Nat.testBit_lt_two_pow (Nat.lt_of_lt_of_le hb
        (Nat.pow_le_pow_right (by omega) (by omega)))
    simp [hj, hbj]

theorem orbitP_symm {hashT : List Nat → Nat} {m g b q : Nat} (hb : b < 2 ^ m)
    (h : orbitP hashT (2 ^ m) g b q) : orbitP hashT (2 ^ m) g q b := by
  rcases h with h | h
  · subst h
    exact orbitP_refl hashT _ g q
  · subst h
    right
    exact (alt_involution hashT m g b hb).symm

theorem orbitP_trans {hashT : List Nat → Nat} {m g a b q : Nat}
    (ha : a < 2 ^ m) (h1 : orbitP hashT (2 ^ m) g a b)
    (h2 : orbitP hashT (2 ^ m) g b q) : orbitP hashT (2 ^ m) g a q := by
  rcases h1 with h1 | h1
  · subst h1
    exact h2
  · subst h1
    rcases h2 with h2 | h2
    · subst h2
      right
      rfl
    · subst h2
      left
      exact alt_involution hashT m g a ha

/-- Orbit preservation through the eviction loop on a power-of-two table:
if the loop returns true, every fingerprint occurrence present before (and
the in-flight fingerprint, for any position whose candidate pair contains
the current target) survives inside its own candidate pair. -/
theorem cuckooAddGo_orbit (hashT : List Nat → Nat) (epb : Nat)
    (rng : Nat → Nat) (m : Nat) :
    ∀ (fuel : Nat) (bins : List (List Nat)) (fp i attempt : Nat)
      (bins2 : List (List Nat)),
      bins.length = 2 ^ m → i < 2 ^ m →
      cuckooAddGo hashT epb rng bins fp i attempt fuel = some (true, bins2) →
      bins2.length = 2 ^ m ∧
      ∀ g p, p < 2 ^ m →
        (0 < ((bins.getD p []).count g) ∨
          (g = fp ∧ orbitP hashT (2 ^ m) g p i)) →
        ∃ q, orbitP hashT (2 ^ m) g p q ∧ 0 < ((bins2.getD q []).count g) := by
  intro fuel
  induction fuel with
  | zero =>
    intro bins fp i attempt bins2 hlen hi h
    simp only [cuckooAddGo] at h
    simp at h
  | succ fuel ih =>
    intro bins fp i attempt bins2 hlen hi h
    unfold cuckooAddGo at h
    by_cases hfree : (bins.getD i []).length < epb
    · rw [if_pos hfree] at h
      simp only [Option.some_inj, Prod.mk.injEq] at h
      obtain ⟨-, h2⟩ := h
      subst h2
      have hbl : i < bins.length := by omega
      refine ⟨by rw [List.length_set]; exact hlen, ?_⟩
      intro g p hp hyp
      rcases hyp with hcnt | ⟨hg, horb⟩
      · refine ⟨p, orbitP_refl _ _ _ _, ?_⟩
        by_cases hpi : p = i
        · subst hpi
          rw [cuckoo_getD_set_self hbl, List.count_append]
          omega
        · rw [cuckoo_getD_set_other (fun hx => hpi hx.symm)]
          exact hcnt
      · subst hg
        refine ⟨i, horb, ?_⟩
        rw [cuckoo_getD_set_self hbl, List.count_append]
        have hone : ([g] : List Nat).count g = 1 := by simp
        omega
    · rw [if_neg hfree] at h
      by_cases ha : attempt = 0
      · rw [if_pos ha] at h
        rw [hlen] at h
        have hi2 : (i ^^^ hashT [fp]) % 2 ^ m < 2 ^ m :=
          Nat.mod_lt _ (Nat.two_pow_pos m)
        obtain ⟨hl2, hmain⟩ := ih bins fp _ 1 bins2 hlen hi2 h
        refine ⟨hl2, ?_⟩
        intro g p hp hyp
        rcases hyp with hcnt | ⟨hg, horb⟩
        · exact hmain g p hp (Or.inl hcnt)
        · subst hg
          refine hmain g p hp (Or.inr ⟨rfl, ?_⟩)
          rcases horb with h1 | h1
          · subst h1
            right
            rfl
          · rw [h1]
            left
            exact alt_involution hashT m g p hp
      · rw [if_neg ha] at h
        by_cases hz : (bins.getD i []).length = 0
        · rw [if_pos hz] at h
          exact absurd h (by simp)
        · rw [if_neg hz] at h
          simp only [] at h
          rw [List.length_set, hlen] at h
          generalize hkidx : rng attempt % (bins.getD i []).length = kidx at h
          generalize hvic : (bins.getD i []).getD kidx 0 = v at h
          have hkick : kidx < (bins.getD i []).length := by
            rw [← hkidx]
            exact Nat.mod_lt _ (by omega)
          obtain ⟨hl2, hmain⟩ := ih
            (bins.set i (swapRemove (bins.getD i []) kidx ++ [fp])) v
            ((i ^^^ hashT [v]) % 2 ^ m) (attempt + 1) bins2
            (by rw [List.length_set]; exact hlen)
            (Nat.mod_lt _ (Nat.two_pow_pos m)) h
          have hbl : i < bins.length := by omega
          have hcnt_self : ∀ g : Nat,
              ((bins.set i (swapRemove (bins.getD i []) kidx ++ [fp])).getD
                i []).count g =
              (swapRemove (bins.getD i []) kidx).count g +
                ([fp] : List Nat).count g := by
            intro g
            rw [cuckoo_getD_set_self hbl, List.count_append]
          refine ⟨hl2, ?_⟩
          intro g p hp hyp
          rcases hyp with hcnt | ⟨hg, horb⟩
          · by_cases hpi : p = i
            · subst hpi
              by_cases hc2 : 0 < ((bins.set p (swapRemove (bins.getD p [])
                  kidx ++ [fp])).getD p []).count g
              · exact hmain g p hp (Or.inl hc2)
              · push_neg at hc2
                rw [hcnt_self g] at hc2
                have hsw := swapRemove_count (bins.getD p []) kidx g hkick
                rw [hvic] at hsw
                have hswz : (swapRemove (bins.getD p []) kidx).count g = 0 := by
                  omega
                rw [hswz] at hsw
                have hvg : v = g := by
                  by_contra hne
                  rw [if_neg hne] at hsw
                  omega
                refine hmain g p hp (Or.inr ⟨hvg.symm, ?_⟩)
                rw [hvg]
                right
                rfl
            · refine hmain g p hp (Or.inl ?_)
              rw [cuckoo_getD_set_other (fun hx => hpi hx.symm)]
              exact hcnt
          · subst hg
            have hcfp : 0 < ((bins.set i (swapRemove (bins.getD i [])
                kidx ++ [g])).getD i []).count g := by
              rw [hcnt_self g]
              have hone : ([g] : List Nat).count g = 1 := by simp
              omega
            obtain ⟨q, hq1, hq2⟩ := hmain g i (by omega) (Or.inl hcfp)
            exact ⟨q, orbitP_trans hp horb hq1, hq2⟩

theorem cuckooAdds_invariant (hashT fpFn : List Nat → Nat) (m epb mk : Nat)
    {c : CuckooFilter} {keys : List (List Nat)}
    (h : CuckooAdds hashT fpFn (with_all_the_levers (2 ^ m) epb mk) c keys) :
    c.bins.length = 2 ^ m ∧
    ∀ bytes ∈ keys, ∃ q,
      orbitP hashT (2 ^ m) (fpFn bytes % 256) (hashT bytes % 2 ^ m) q ∧
      0 < ((c.bins.getD q []).count (fpFn bytes % 256)) := by
  induction h with
  | nil =>
    constructor
    · show (List.replicate (2 ^ m) ([] : List Nat)).length = 2 ^ m
      rw [List.length_replicate]
    · intro bytes hmem
      cases hmem
  | step c c2 keys bytes rng hadds ha ih =>
    obtain ⟨hlen, hinv⟩ := ih
    have h2m : 0 < 2 ^ m := Nat.two_pow_pos m
    unfold CuckooFilter.add at ha
    rw [if_neg (by omega)] at ha
    simp only [] at ha
    rw [hlen] at ha
    cases hr : cuckooAddGo hashT c.entries_per_bin rng c.bins
        (fpFn bytes % 256) (hashT bytes % 2 ^ m) 0 c.max_kicks with
    | none =>
      rw [hr] at ha
      exact absurd ha (by simp)
    | some r =>
      rw [hr] at ha
      simp only [Option.map_some', Option.some_inj, Prod.mk.injEq] at ha
      obtain ⟨hr1, hr2⟩ := ha
      have hgo : cuckooAddGo hashT c.entries_per_bin rng c.bins
          (fpFn bytes % 256) (hashT bytes % 2 ^ m) 0 c.max_kicks =
          some (true, r.2) := by
        rw [hr, show r = (r.1, r.2) from rfl, ← hr1]
      obtain ⟨hl2, hmain⟩ := cuckooAddGo_orbit hashT c.entries_per_bin rng m
        c.max_kicks c.bins (fpFn bytes % 256) (hashT bytes % 2 ^ m) 0 r.2
        hlen (Nat.mod_lt _ h2m) hgo
      subst hr2
      refine ⟨hl2, ?_⟩
      intro bytes2 hmem
      rcases List.mem_cons.mp hmem with hbe | hbe
      · subst hbe
        exact hmain (fpFn bytes2 % 256) (hashT bytes2 % 2 ^ m)
          (Nat.mod_lt _ h2m) (Or.inr ⟨rfl, orbitP_refl _ _ _ _⟩)
      · obtain ⟨q0, horb0, hcnt0⟩ := hinv bytes2 hbe
        have hq0 : q0 < 2 ^ m := orbitP_lt (Nat.mod_lt _ h2m) horb0
        obtain ⟨q, horbq, hcnt⟩ := hmain (fpFn bytes2 % 256) q0 hq0
          (Or.inl hcnt0)
        exact ⟨q, orbitP_trans (Nat.mod_lt _ h2m) horb0 horbq, hcnt⟩

/-- C3 amended: on a power-of-two bin count, a cuckoo filter reached from
an empty table by add calls that all returned true has no false negatives:
contains(x) is true for every added key x, because every stored
fingerprint stays reachable from one of its two candidate indices (the
XOR-then-mod alternate-index step is only an involution when bin_count is
a power of two). -/
theorem C3_pow2_no_false_negatives (hashT fpFn : List Nat → Nat)
    (m epb mk : Nat) (c : CuckooFilter) (keys : List (List Nat))
    (h : CuckooAdds hashT fpFn (with_all_the_levers (2 ^ m) epb mk) c keys)
    (bytes : List Nat) (hmem : bytes ∈ keys) :
    c.contains bytes hashT fpFn = some true := by
  obtain ⟨hlen, hinv⟩ := cuckooAdds_invariant hashT fpFn m epb mk h
  obtain ⟨q, horb, hcnt⟩ := hinv bytes hmem
  have h2m : 0 < 2 ^ m := Nat.two_pow_pos m
  have hmemq : (fpFn bytes % 256) ∈ c.bins.getD q [] :=
    List.count_pos_iff.mp hcnt
  have hb : (c.bins.getD q []).contains (fpFn bytes % 256) = true :=
    List.elem_eq_true_of_mem hmemq
  have hne : (c.bins.getD q []).isEmpty = false := by
    rw [List.isEmpty_eq_false]
    intro hx
    rw [hx] at hmemq
    cases hmemq
  unfold CuckooFilter.contains
  rw [if_neg (by omega)]
  simp only []
  rw [hlen]
  congr 1
  rcases horb with hq | hq
  · subst hq
    rw [hb, hne]
    rfl
  · subst hq
    rw [hb, hne]
    simp

/-- C3 counterexample: bin count 3 (not a power of two), one entry per
bin.  Keys [2], [1], [3] are added and every add returns true; adding [3]
evicts the fingerprint of [1] from its alternate bin 1 to bin
(1 XOR 8) mod 3 = 0, which is in neither of [1]'s candidate bins
(2 and (2 XOR 8) mod 3 = 1).  contains([1]) is then false: a false
negative after a sequence of adds that all returned true. -/
theorem C3_counterexample :
    (with_all_the_levers 3 1 100).add [2] hashC3 fpC3 (fun _ => 0) =
      some (true,
        { bins := [[], [], [20]], entries_per_bin := 1, max_kicks := 100 }) ∧
    CuckooFilter.add
        { bins := [[], [], [20]], entries_per_bin := 1, max_kicks := 100 }
        [1] hashC3 fpC3 (fun _ => 0) =
      some (true,
        { bins := [[], [10], [20]], entries_per_bin := 1, max_kicks := 100 }) ∧
    CuckooFilter.add
        { bins := [[], [10], [20]], entries_per_bin := 1, max_kicks := 100 }
        [3] hashC3 fpC3 (fun _ => 0) =
      some (true,
        { bins := [[10], [30], [20]], entries_per_bin := 1, max_kicks := 100 }) ∧
    CuckooFilter.contains
        { bins := [[10], [30], [20]], entries_per_bin := 1, max_kicks := 100 }
        [1] hashC3 fpC3 = some false :=
  ⟨by decide, by decide, by decide, by decide⟩

/-- C3 witness: the amended theorem on a one-bin (2^0) table with one
concrete successful add. -/
theorem C3_witness :
    CuckooAdds hashTW fpFnW (with_all_the_levers (2 ^ 0) 1 100)
      { bins := [[7]], entries_per_bin := 1, max_kicks := 100 } [[5]] ∧
    CuckooFilter.contains
      { bins := [[7]], entries_per_bin := 1, max_kicks := 100 }
      [5] hashTW fpFnW = some true := by
  have hchain : CuckooAdds hashTW fpFnW (with_all_the_levers (2 ^ 0) 1 100)
      { bins := [[7]], entries_per_bin := 1, max_kicks := 100 } [[5]] :=
    CuckooAdds.step _ _ [] [5] (fun _ => 0) CuckooAdds.nil (by decide)
  exact ⟨hchain, C3_pow2_no_false_negatives hashTW fpFnW 0 1 100 _ [[5]]
    hchain [5] (by decide)⟩
